import Mathlib

/-!
Verification development for the macOS self-contained bundling tool
(`src/macos/bundle.rs`, `src/macos/utils.rs`, `src/utils.rs`).

The Rust code is shallowly embedded:

* `FsPath` models `std::path::PathBuf` as an absoluteness flag plus a list
  of components (Rust's `components()` normalises away empty and `.`
  components; `file_name` is `None` for a trailing `..`).
* Filesystem and external-tool effects (`exists`, `canonicalize`, `otool -L`
  output, directory listings, symlink metadata, file contents) are supplied
  by a `World` of oracles; one `World` describes the answers the OS gives
  during one run.
* The bundler's mutable state (`processed_libraries`, `executables`) is an
  explicit `BState`; filesystem mutations and `install_name_tool`
  invocations are recorded as an ordered list of `Event`s.
* Rust panics on `Option::unwrap` are modelled as the distinguished error
  `Err.panicked`; recursion is driven by fuel, with `Err.outOfFuel` a model
  artefact that provably never occurs at sufficient fuel.
-/

namespace BundleTool

/-- Rust `str::starts_with`, modelled on the underlying character list. -/
def rustStartsWith (s p : String) : Bool :=
  p.data.isPrefixOf s.data

/-- Rust `str::ends_with`, modelled on the underlying character list. -/
def rustEndsWith (s p : String) : Bool :=
  p.data.isSuffixOf s.data

/-- Rust `str::trim`, modelled on the character list: drop Unicode
whitespace from both ends. -/
def rustTrim (s : String) : String :=
  ⟨((s.data.dropWhile Char.isWhitespace).reverse.dropWhile Char.isWhitespace).reverse⟩

/-- Splitting a character list at every occurrence of a separator
(`str::split`). -/
def splitOnChar (sep : Char) : List Char → List (List Char)
  | [] => [[]]
  | c :: rest =>
    if c = sep then [] :: splitOnChar sep rest
    else
      match splitOnChar sep rest with
      | [] => [[c]]
      | g :: gs => (c :: g) :: gs

/-- `str::replace(s, "@rpath", rep)`: replace every (leftmost,
non-overlapping) occurrence of the fixed pattern `@rpath`. -/
def replaceRpathChars (rep : List Char) : List Char → List Char
  | '@' :: 'r' :: 'p' :: 'a' :: 't' :: 'h' :: rest => rep ++ replaceRpathChars rep rest
  | c :: rest => c :: replaceRpathChars rep rest
  | [] => []

/-- `str::replace` for the `@rpath` token, on strings. -/
def rustReplaceRpath (s rep : String) : String :=
  ⟨replaceRpathChars rep.data s.data⟩

/-- Components joined by `/`. -/
def joinComps (comps : List String) : String :=
  ⟨List.intercalate ['/'] (comps.map String.data)⟩

/-- Model of `std::path::PathBuf`: an absoluteness flag plus the normal
components, in order.  `⟨true, []⟩` is `/`, `⟨false, []⟩` is the empty
path. -/
structure FsPath where
  absolute : Bool
  comps : List String
deriving DecidableEq, Repr

/-- Rust `Path::parent`: `None` for `/` and for the empty path, otherwise
the path with its last component dropped. -/
def FsPath.parent (p : FsPath) : Option FsPath :=
  match p.comps with
  | [] => none
  | _ :: _ => some ⟨p.absolute, p.comps.dropLast⟩

/-- Rust `Path::file_name`: the final component, unless there is none or it
is `..`. -/
def FsPath.fileName (p : FsPath) : Option String :=
  match p.comps.getLast? with
  | none => none
  | some s => if s = ".." then none else some s

/-- Rust `Path::join` with a single-component relative string. -/
def FsPath.join (p : FsPath) (s : String) : FsPath :=
  ⟨p.absolute, p.comps ++ [s]⟩

/-- Rust `Path::join` with a path argument (an absolute argument replaces
the receiver). -/
def FsPath.joinPath (p q : FsPath) : FsPath :=
  if q.absolute then q else ⟨p.absolute, p.comps ++ q.comps⟩

/-- Rust `PathBuf::from(&str)`: absolute iff the string starts with `/`;
components are the `/`-separated pieces with empty and `.` pieces
normalised away. -/
def FsPath.ofString (s : String) : FsPath :=
  ⟨rustStartsWith s "/",
   ((splitOnChar '/' s.data).map (fun cs => (⟨cs⟩ : String))).filter
     (fun c => c ≠ "" && c ≠ ".")⟩

/-- Rust `Path::to_string_lossy` (for paths built from UTF-8 strings). -/
def FsPath.render (p : FsPath) : String :=
  (if p.absolute then "/" else "") ++ joinComps p.comps

/-- `to_string_lossy` of a relative path: components joined by `/`. -/
def FsPath.renderRel (p : FsPath) : String :=
  joinComps p.comps

/-- Rust `Path::starts_with`: component-wise prefix (root counts as a
component, hence the absoluteness flags must agree). -/
def FsPath.startsWith (p base : FsPath) : Bool :=
  p.absolute == base.absolute && base.comps.isPrefixOf p.comps

/-- Component part of `pathdiff::diff_paths`: strip the common prefix, then
one `..` per remaining base component followed by the remaining target
components. -/
def diffComps : List String → List String → List String
  | p, [] => p
  | [], b => b.map (fun _ => "..")
  | x :: xs, y :: ys =>
    if x = y then diffComps xs ys
    else ((y :: ys).map (fun _ => "..")) ++ (x :: xs)

/-- `pathdiff::diff_paths(path, base)`: `None` when a relative path is
diffed against an absolute base; an absolute path against a relative base
is returned as-is; otherwise the component diff. -/
def diff_paths (path base : FsPath) : Option FsPath :=
  if path.absolute ≠ base.absolute then
    if path.absolute then some path else none
  else
    some ⟨false, diffComps path.comps base.comps⟩

/-- `ModulePath::is_system` (src/macos/bundle.rs:303): the reference string
begins with `/usr/`, `/lib/` or `/System/`. -/
def is_system (p : String) : Bool :=
  rustStartsWith p "/usr/" || rustStartsWith p "/lib/" || rustStartsWith p "/System/"

/-- `MAGIC_FAT` (src/macos/utils.rs:17). -/
def MAGIC_FAT : List Nat := [0xca, 0xfe, 0xba, 0xbe]

/-- `CIGAM_FAT` (src/macos/utils.rs:18). -/
def CIGAM_FAT : List Nat := [0xbe, 0xba, 0xfe, 0xca]

/-- `MAGIC_64` (src/macos/utils.rs:19). -/
def MAGIC_64 : List Nat := [0xfe, 0xed, 0xfa, 0xcf]

/-- `CIGAM_64` (src/macos/utils.rs:20). -/
def CIGAM_64 : List Nat := [0xcf, 0xfa, 0xed, 0xfe]

/-- `is_executable_binary` (src/macos/utils.rs:5-27), as a function of the
file's byte content.  The code proceeds only when `meta.len() > 4`; it then
reads up to 4 bytes (`num_read`, always 4 here since the file is longer
than 4 bytes) and compares them against the four Mach-O magic sequences.
No permission bits are consulted by the source. -/
def is_executable_binary (content : List Nat) : Bool :=
  if 4 < content.length then
    let start := content.take 4
    let numRead := min 4 content.length
    numRead == 4 &&
      (start == MAGIC_FAT || start == CIGAM_FAT || start == MAGIC_64 || start == CIGAM_64)
  else
    false

/-- Errors of the tool, mirroring `ToolError` (src/error.rs).  String-typed
`OtherError` values that carry structured data in their formatted message
are given structured constructors here (`versionConflict`,
`invalidOtoolOutput`, `malformedOtool`).  `panicked` models an
`Option::unwrap` panic and `outOfFuel` is the fuel artefact of the
embedding. -/
inductive FileOp where
  | createDir | copy | remove | removeDir | read | readLink | readDir
  | metaData | canonicalize | symLink | mkDir | openFile | command
deriving DecidableEq, Repr

inductive Err where
  | fileOp (op : FileOp) (path : FsPath)
  | toolFailed (path : FsPath)
  | pathResolve (reference : String) (rpaths : List FsPath)
  | versionConflict (resolved existing : FsPath)
  | invalidOtoolOutput (path : FsPath)
  | malformedOtool (line : String)
  | preconditionFailure (msg : String)
  | panicked
  | outOfFuel
deriving DecidableEq, Repr

/-- `extract_module_path` (src/macos/bundle.rs:400-410): trim the line, find
the first space character; everything before it is the `ModulePath`,
no space at all is a malformed-output error. -/
def extract_module_path (line : String) : Except Err String :=
  let t := rustTrim line
  if t.data.contains ' ' then .ok ⟨t.data.takeWhile (fun c => c ≠ ' ')⟩
  else .error (.malformedOtool t)

/-- The `collect::<ToolResult<Vec<_>>>` in `find_module_paths`
(src/macos/bundle.rs:397): extract each line, short-circuiting on the first
error. -/
def collectPaths : List String → Except Err (List String)
  | [] => .ok []
  | l :: rest =>
    match extract_module_path l with
    | .error e => .error e
    | .ok m =>
      match collectPaths rest with
      | .error e => .error e
      | .ok ms => .ok (m :: ms)

/-- The pure parsing part of `find_module_paths`
(src/macos/bundle.rs:391-398): drop the `otool -L` header line, then
extract a `ModulePath` from every remaining line. -/
def parse_module_paths (lines : List String) : Except Err (List String) :=
  collectPaths (lines.drop 1)

/-- `find_dependency_root` (src/macos/bundle.rs:412-438).  `none` models
the panic of `parent.file_name().unwrap()` when the relevant parent has no
final component. -/
def find_dependency_root (path : FsPath) : Option FsPath :=
  match path.parent with
  | none => some path
  | some parent =>
    match parent.fileName with
    | none => none
    | some parentName =>
      if rustEndsWith parentName ".framework" then some parent
      else
        match parent.parent with
        | none => some path
        | some gp =>
          match gp.fileName with
          | none => none
          | some gpName =>
            if gpName = "Versions" then
              match gp.parent with
              | none => some path
              | some ggp =>
                match ggp.fileName with
                | none => none
                | some ggpName =>
                  if rustEndsWith ggpName ".framework" then some ggp
                  else some path
            else some path

/-- Link-edit instructions and filesystem mutations issued during a run, in
order.  `insert` records the `processed_libraries.insert` of
src/macos/bundle.rs:264; `changeId`, `changePaths` and `addRpath` are the
three `install_name_tool` invocation shapes; the rest are filesystem
writes. -/
inductive Event where
  | symlink (target dest : FsPath)
  | removeFile (path : FsPath)
  | createDir (path : FsPath)
  | mkDirAll (path : FsPath)
  | copyFile (src dest : FsPath)
  | copyTree (src dest : FsPath)
  | insert (key : String) (src : FsPath)
  | changeId (newId : String) (target : FsPath)
  | changePaths (pairs : List (String × String)) (target : FsPath)
  | addRpath (arg : FsPath) (target : FsPath)
deriving DecidableEq, Repr

/-- `Module` (src/macos/bundle.rs:349-353). -/
structure Module where
  path : FsPath
  dependencies : List String
deriving DecidableEq, Repr

/-- `Library` (src/macos/bundle.rs:343-347). -/
structure Library where
  module : Module
  install_name : String
deriving DecidableEq, Repr

/-- The filesystem / external-tool oracles one run of the bundler consults.
Each field answers the corresponding OS or collaborator query; `none`
models the underlying call failing. -/
structure World where
  pathExists : FsPath → Bool
  isDir : FsPath → Bool
  content : FsPath → Option (List Nat)
  canon : FsPath → Option FsPath
  otool : FsPath → Option (List String)
  readDir : FsPath → Option (List String)
  symlinkMeta : FsPath → Option Bool
  readLink : FsPath → Option FsPath

/-- The run-constant data of a `SelfContained` value: the oracles, the
source bundle path and the computed output bundle path. -/
structure Ctx where
  w : World
  srcPath : FsPath
  outPath : FsPath

/-- The mutable state of `SelfContained`: `processed_libraries` (an
association list standing for the `HashMap`, most recent insertion first),
`executables`, and the ordered trace of issued events. -/
structure BState where
  processed : List (String × FsPath)
  executables : List FsPath
  events : List Event
deriving DecidableEq, Repr

/-- `HashMap::get` on the association list. -/
def lookupProc : List (String × FsPath) → String → Option FsPath
  | [], _ => none
  | (k, v) :: rest, key => if k = key then some v else lookupProc rest key

/-- `is_same` (src/utils.rs:54-67): both files' metadata are read (an
unreadable file is a `MetaData` error); different sizes are an immediate
`false`; otherwise the contents are compared chunk by chunk, which for
readable files is full byte equality.  A file's size is the length of its
content. -/
def is_same (w : World) (f1 f2 : FsPath) : Except Err Bool :=
  match w.content f1 with
  | none => .error (.fileOp .metaData f1)
  | some c1 =>
    match w.content f2 with
    | none => .error (.fileOp .metaData f2)
    | some c2 =>
      if c1.length ≠ c2.length then .ok false
      else .ok (c1 == c2)

/-- `find_module_paths` (src/macos/bundle.rs:391-398): run `otool -L`
(failure of the tool is a tool error), then parse its lines. -/
def find_module_paths (w : World) (path : FsPath) : Except Err (List String) :=
  match w.otool path with
  | none => .error (.toolFailed path)
  | some lines => parse_module_paths lines

/-- `load_library` (src/macos/bundle.rs:355-373): empty entry list is an
invalid-output error; otherwise the first entry is the install name and the
rest are the dependencies. -/
def load_library (w : World) (path : FsPath) : Except Err Library :=
  match find_module_paths w path with
  | .error e => .error e
  | .ok [] => .error (.invalidOtoolOutput path)
  | .ok (install :: rest) => .ok ⟨⟨path, rest⟩, install⟩

/-- `load_executable` (src/macos/bundle.rs:375-389): empty entry list is an
invalid-output error; otherwise all entries are dependencies. -/
def load_executable (w : World) (path : FsPath) : Except Err Module :=
  match find_module_paths w path with
  | .error e => .error e
  | .ok [] => .error (.invalidOtoolOutput path)
  | .ok paths => .ok ⟨path, paths⟩

/-- The `for rpath in &self.rpaths` loop of `PathResolver::resolve`
(src/macos/bundle.rs:328-338): substitute every occurrence of `@rpath` in
the reference by the root, return the first substitution that exists, or a
`PathResolve` error carrying the reference and all configured roots. -/
def resolveGo (w : World) (reference : String) (allRpaths : List FsPath) :
    List FsPath → Except Err FsPath
  | [] => .error (.pathResolve reference allRpaths)
  | r :: rest =>
    let replaced := FsPath.ofString (rustReplaceRpath reference r.render)
    if w.pathExists replaced then .ok replaced
    else resolveGo w reference allRpaths rest

/-- `PathResolver::resolve` (src/macos/bundle.rs:323-340): if the reference,
taken as a path, exists, return it; otherwise try each configured root in
order. -/
def resolve (w : World) (rpaths : List FsPath) (reference : String) : Except Err FsPath :=
  let p := FsPath.ofString reference
  if w.pathExists p then .ok p
  else resolveGo w reference rpaths rpaths

/-- The prelude of `process_dependency` (src/macos/bundle.rs:249-253):
resolve the reference, find the dependency root, diff the resolved path
against the root's parent, and format the new `@rpath/…` module path.  The
`unwrap`s on `root.parent()` and on `diff_paths` are panics. -/
def compute_new_path (ctx : Ctx) (rpaths : List FsPath) (dep : String) :
    Except Err (FsPath × FsPath × FsPath × String) :=
  match resolve ctx.w rpaths dep with
  | .error e => .error e
  | .ok resolved =>
    match find_dependency_root resolved with
    | none => .error .panicked
    | some root =>
      match root.parent with
      | none => .error .panicked
      | some rootParent =>
        match diff_paths resolved rootParent with
        | none => .error .panicked
        | some rel =>
          .ok (resolved, root, rel, "@rpath/" ++ rel.renderRel)

/-- The body of `process_dependency` (src/macos/bundle.rs:244-292),
parameterised over the recursive call to `process_module` (which carries
the fuel).  Mirrors the source line by line: lookup in
`processed_libraries`; on a hit, `is_same` decides between a
version-conflict error and a no-op; on a miss, record the mapping, load the
library, create `Contents/Frameworks`, copy the canonicalized root,
recursively process the library's module, and fix its install identity if
it differs from the new reference. -/
def process_dependency_core (ctx : Ctx) (rpaths : List FsPath)
    (recurse : FsPath → Module → BState → Except Err BState)
    (st : BState) (dep : String) : Except Err (BState × String) :=
  match compute_new_path ctx rpaths dep with
  | .error e => .error e
  | .ok (resolved, root, rel, newModulePath) =>
    match lookupProc st.processed newModulePath with
    | some existing =>
      match is_same ctx.w resolved existing with
      | .error e => .error e
      | .ok same =>
        if !same then .error (.versionConflict resolved existing)
        else .ok (st, newModulePath)
    | none =>
      let st1 : BState :=
        { st with processed := (newModulePath, resolved) :: st.processed,
                  events := st.events ++ [.insert newModulePath resolved] }
      match load_library ctx.w resolved with
      | .error e => .error e
      | .ok library =>
        let frameworksPath := (ctx.outPath.join "Contents").join "Frameworks"
        let st2 : BState := { st1 with events := st1.events ++ [.mkDirAll frameworksPath] }
        match root.fileName with
        | none => .error .panicked
        | some rootName =>
          let copyTarget := frameworksPath.join rootName
          match ctx.w.canon root with
          | none => .error (.fileOp .canonicalize root)
          | some realRoot =>
            let st3 : BState := { st2 with events := st2.events ++ [.copyTree realRoot copyTarget] }
            let targetModulePath := frameworksPath.joinPath rel
            match recurse targetModulePath library.module st3 with
            | .error e => .error e
            | .ok st4 =>
              if library.install_name ≠ newModulePath then
                .ok ({ st4 with
                        events := st4.events ++ [.changeId newModulePath targetModulePath] },
                     newModulePath)
              else .ok (st4, newModulePath)

/-- The dependency loop of `process_module` (src/macos/bundle.rs:219-228),
parameterised over `process_dependency`: system dependencies are skipped
outright; the pairs whose new path differs from the old are collected in
order. -/
def process_deps_core (pd : BState → String → Except Err (BState × String)) :
    BState → List String → Except Err (BState × List (String × String))
  | st, [] => .ok (st, [])
  | st, dep :: rest =>
    if is_system dep then process_deps_core pd st rest
    else
      match pd st dep with
      | .error e => .error e
      | .ok (st1, newPath) =>
        match process_deps_core pd st1 rest with
        | .error e => .error e
        | .ok (st2, pairs) =>
          .ok (st2, if newPath ≠ dep then (dep, newPath) :: pairs else pairs)

/-- `process_module` (src/macos/bundle.rs:213-242), parameterised over
`process_dependency`: walk the dependencies, then, if any reference
changed, issue one batched `install_name_tool -change` invocation against
the target module path. -/
def process_module_core (pd : BState → String → Except Err (BState × String))
    (targetModulePath : FsPath) (m : Module) (st : BState) : Except Err BState :=
  match process_deps_core pd st m.dependencies with
  | .error e => .error e
  | .ok (st1, pairs) =>
    if pairs.isEmpty then .ok st1
    else .ok { st1 with events := st1.events ++ [.changePaths pairs targetModulePath] }

/-- The mutual recursion `process_module` ↔ `process_dependency`, driven by
fuel: one unit of fuel is consumed each time `process_dependency` recurses
into the module graph of a newly discovered library. -/
def process_module_fuel (ctx : Ctx) (rpaths : List FsPath) :
    Nat → FsPath → Module → BState → Except Err BState
  | 0, _, _, _ => .error .outOfFuel
  | fuel + 1, targetModulePath, m, st =>
    process_module_core
      (process_dependency_core ctx rpaths (process_module_fuel ctx rpaths fuel))
      targetModulePath m st

/-- `SelfContained::process_dependency` at a given fuel. -/
def process_dependency (ctx : Ctx) (rpaths : List FsPath) (fuel : Nat)
    (st : BState) (dep : String) : Except Err (BState × String) :=
  process_dependency_core ctx rpaths (process_module_fuel ctx rpaths fuel) st dep

/-- The dependency loop of `SelfContained::process_module` at a given fuel. -/
def process_deps (ctx : Ctx) (rpaths : List FsPath) (fuel : Nat)
    (st : BState) (deps : List String) : Except Err (BState × List (String × String)) :=
  process_deps_core
    (process_dependency_core ctx rpaths (process_module_fuel ctx rpaths fuel)) st deps

/-- `SelfContained::process_module` at a given fuel. -/
def process_module (ctx : Ctx) (rpaths : List FsPath) (fuel : Nat)
    (targetModulePath : FsPath) (m : Module) (st : BState) : Except Err BState :=
  process_module_fuel ctx rpaths fuel targetModulePath m st

/-- `SelfContained::process_executable` (src/macos/bundle.rs:185-211):
diff the executable against the source bundle, canonicalize it, build a
resolver whose sole root is the executable's directory, load its module,
process it against its location in the output bundle, and — only when some
dependency is local — add a single rpath pointing at the bundle's
`Contents/Frameworks`, expressed relative to the executable via
`@executable_path`. -/
def process_executable (ctx : Ctx) (fuel : Nat) (st : BState) (executable : FsPath) :
    Except Err BState :=
  match diff_paths executable ctx.srcPath with
  | none => .error .panicked
  | some relative =>
    match ctx.w.canon executable with
    | none => .error (.fileOp .canonicalize executable)
    | some exeCanon =>
      match exeCanon.parent with
      | none => .error .panicked
      | some rpathRoot =>
        match load_executable ctx.w exeCanon with
        | .error e => .error e
        | .ok m =>
          let targetExecutablePath := ctx.outPath.joinPath relative
          match process_module_fuel ctx [rpathRoot] fuel targetExecutablePath m st with
          | .error e => .error e
          | .ok st1 =>
            if m.dependencies.any (fun d => !(is_system d)) then
              let frameworksPath := (ctx.outPath.join "Contents").join "Frameworks"
              match targetExecutablePath.parent with
              | none => .error .panicked
              | some targetParent =>
                match diff_paths frameworksPath targetParent with
                | none => .error .panicked
                | some rp =>
                  .ok { st1 with
                        events := st1.events ++
                          [.addRpath ((FsPath.ofString "@executable_path").joinPath rp)
                            targetExecutablePath] }
            else .ok st1

/-- The tail of one `process_dir` loop iteration (src/macos/bundle.rs:157-180),
after any symlink handling: canonicalize the source entry; a directory is
created and recursed into, a file is copied and, when it classifies as a
linked binary, its source path is recorded in `executables`. -/
def process_entry_tail (ctx : Ctx)
    (recurseDir : BState → FsPath → FsPath → Except Err BState)
    (st : BState) (entryPath dest : FsPath) : Except Err BState :=
  match ctx.w.canon entryPath with
  | none => .error (.fileOp .canonicalize entryPath)
  | some srcResolved =>
    if ctx.w.isDir srcResolved then
      let st1 : BState := { st with events := st.events ++ [.createDir dest] }
      recurseDir st1 entryPath dest
    else
      let st1 : BState := { st with events := st.events ++ [.copyFile srcResolved dest] }
      match ctx.w.content srcResolved with
      | none => .error (.fileOp .metaData srcResolved)
      | some c =>
        if is_executable_binary c then
          .ok { st1 with executables := st1.executables ++ [entryPath] }
        else .ok st1

/-- One iteration of the `process_dir` loop (src/macos/bundle.rs:117-181)
for the entry `name` of `srcDir`: fetch symlink metadata; skip a
`Frameworks` entry directly under a `Contents` directory; recreate a
symlink at the destination, keep it if it canonicalizes into the output
bundle, otherwise remove it and fall through to copying the resolved
source. -/
def process_entry (ctx : Ctx)
    (recurseDir : BState → FsPath → FsPath → Except Err BState)
    (st : BState) (srcDir dstDir : FsPath) (name : String) : Except Err BState :=
  let entryPath := srcDir.join name
  let dest := dstDir.join name
  match ctx.w.symlinkMeta entryPath with
  | none => .error (.fileOp .metaData entryPath)
  | some isLink =>
    match srcDir.fileName with
    | none => .error .panicked
    | some srcDirName =>
      if srcDirName = "Contents" ∧ name = "Frameworks" then .ok st
      else
        if isLink then
          match ctx.w.readLink entryPath with
          | none => .error (.fileOp .readLink entryPath)
          | some link =>
            let st1 : BState := { st with events := st.events ++ [.symlink link dest] }
            match ctx.w.canon dest with
            | none => .error (.fileOp .canonicalize dest)
            | some destResolved =>
              match ctx.w.canon ctx.outPath with
              | none => .error (.fileOp .canonicalize ctx.outPath)
              | some bundleResolved =>
                if destResolved.startsWith bundleResolved then .ok st1
                else
                  let st2 : BState := { st1 with events := st1.events ++ [.removeFile dest] }
                  process_entry_tail ctx recurseDir st2 entryPath dest
        else process_entry_tail ctx recurseDir st entryPath dest

/-- The `for entry in src_dir.read_dir()` loop of `process_dir`. -/
def process_entries (ctx : Ctx)
    (recurseDir : BState → FsPath → FsPath → Except Err BState) :
    BState → FsPath → FsPath → List String → Except Err BState
  | st, _, _, [] => .ok st
  | st, srcDir, dstDir, name :: rest =>
    match process_entry ctx recurseDir st srcDir dstDir name with
    | .error e => .error e
    | .ok st1 => process_entries ctx recurseDir st1 srcDir dstDir rest

/-- `SelfContained::process_dir` (src/macos/bundle.rs:117-183), driven by
fuel: list the source directory and handle each entry in order. -/
def process_dir_fuel (ctx : Ctx) : Nat → BState → FsPath → FsPath → Except Err BState
  | 0, _, _, _ => .error .outOfFuel
  | fuel + 1, st, srcDir, dstDir =>
    match ctx.w.readDir srcDir with
    | none => .error (.fileOp .readDir srcDir)
    | some names => process_entries ctx (process_dir_fuel ctx fuel) st srcDir dstDir names

/-- `SelfContained::process_dir` at a given fuel. -/
def process_dir (ctx : Ctx) (fuel : Nat) (st : BState) (srcDir dstDir : FsPath) :
    Except Err BState :=
  process_dir_fuel ctx fuel st srcDir dstDir

/-- One `process_dir` loop iteration at a given fuel. -/
def process_entry_at (ctx : Ctx) (fuel : Nat) (st : BState)
    (srcDir dstDir : FsPath) (name : String) : Except Err BState :=
  process_entry ctx (process_dir_fuel ctx fuel) st srcDir dstDir name

/-- Whether an event is an `install_name_tool -add_rpath` invocation. -/
def isAddRpathEvent : Event → Bool
  | .addRpath _ _ => true
  | _ => false

/-- How one successful `process_module` / `process_dependency` call may
change the bundler state: existing `processed_libraries` entries are
preserved, every new key has the `@rpath/` shape, events are only appended
and never include an `-add_rpath` instruction, and `executables` is
untouched. -/
def StEvolve (st st1 : BState) : Prop :=
  (∀ k v, lookupProc st.processed k = some v → lookupProc st1.processed k = some v)
  ∧ (∀ k, (lookupProc st1.processed k).isSome = true →
      (lookupProc st.processed k).isSome = true ∨ ∃ r, k = "@rpath/" ++ r)
  ∧ (∃ δ, st1.events = st.events ++ δ ∧ ∀ e ∈ δ, isAddRpathEvent e = false)
  ∧ st1.executables = st.executables

theorem stEvolve_refl (st : BState) : StEvolve st st :=
  ⟨fun _ _ h => h, fun _ h => Or.inl h, ⟨[], by simp⟩, rfl⟩

theorem stEvolve_trans {st st1 st2 : BState} (h1 : StEvolve st st1) (h2 : StEvolve st1 st2) :
    StEvolve st st2 := by
  obtain ⟨k1, s1, ⟨d1, e1, a1⟩, x1⟩ := h1
  obtain ⟨k2, s2, ⟨d2, e2, a2⟩, x2⟩ := h2
  refine ⟨fun k v h => k2 k v (k1 k v h), fun k h => ?_, ⟨d1 ++ d2, ?_, ?_⟩, x2.trans x1⟩
  · rcases s2 k h with h' | h'
    · exact s1 k h'
    · exact Or.inr h'
  · rw [e2, e1, List.append_assoc]
  · intro e he
    rcases List.mem_append.mp he with h | h
    · exact a1 e h
    · exact a2 e h

theorem stEvolve_events (st : BState) (es : List Event)
    (h : ∀ e ∈ es, isAddRpathEvent e = false) :
    StEvolve st { st with events := st.events ++ es } :=
  ⟨fun _ _ h => h, fun _ h => Or.inl h, ⟨es, rfl, h⟩, rfl⟩

theorem stEvolve_insert (st : BState) (k : String) (v : FsPath) (es : List Event)
    (hk : lookupProc st.processed k = none) (hshape : ∃ r, k = "@rpath/" ++ r)
    (hes : ∀ e ∈ es, isAddRpathEvent e = false) :
    StEvolve st { st with processed := (k, v) :: st.processed,
                          events := st.events ++ es } := by
  refine ⟨fun k' v' h => ?_, fun k' h => ?_, ⟨es, rfl, hes⟩, rfl⟩
  · show (if k = k' then some v else lookupProc st.processed k') = some v'
    by_cases hkk : k = k'
    · rw [← hkk] at h; rw [hk] at h; cases h
    · simp only [hkk, if_false]; exact h
  · by_cases hkk : k = k'
    · exact Or.inr (hkk ▸ hshape)
    · refine Or.inl ?_
      have : lookupProc ((k, v) :: st.processed) k' = lookupProc st.processed k' := by
        show (if k = k' then some v else lookupProc st.processed k') = _
        simp [hkk]
      rw [this] at h
      exact h

/-- The new module path computed by `process_dependency` always has the
`@rpath/…` shape. -/
theorem compute_new_path_shape (ctx : Ctx) (rpaths : List FsPath) (dep : String)
    (resolved root rel : FsPath) (newPath : String)
    (h : compute_new_path ctx rpaths dep = .ok (resolved, root, rel, newPath)) :
    newPath = "@rpath/" ++ rel.renderRel := by
  simp only [compute_new_path] at h
  split at h
  · exact Except.noConfusion h
  · split at h
    · exact Except.noConfusion h
    · split at h
      · exact Except.noConfusion h
      · split at h
        · exact Except.noConfusion h
        · simp only [Except.ok.injEq, Prod.mk.injEq] at h
          obtain ⟨-, -, hrel, hnew⟩ := h
          rw [← hnew, hrel]

/-- A key of the `@rpath/…` shape is never a system module path. -/
theorem rpath_key_not_system (s : String) : is_system ("@rpath/" ++ s) = false := by
  have hd : ("@rpath/" ++ s).data = '@' :: 'r' :: 'p' :: 'a' :: 't' :: 'h' :: '/' :: s.data := by
    rw [String.data_append]; rfl
  have h1 : ("/usr/".data) = ['/', 'u', 's', 'r', '/'] := rfl
  have h2 : ("/lib/".data) = ['/', 'l', 'i', 'b', '/'] := rfl
  have h3 : ("/System/".data) = ['/', 'S', 'y', 's', 't', 'e', 'm', '/'] := rfl
  simp [is_system, rustStartsWith, hd, h1, h2, h3, List.isPrefixOf]

/-- `process_deps_core` preserves `StEvolve`, given that the dependency
processor does. -/
theorem process_deps_core_evolve
    (pd : BState → String → Except Err (BState × String))
    (hpd : ∀ st dep st1 np, pd st dep = .ok (st1, np) → StEvolve st st1) :
    ∀ deps st st2 pairs, process_deps_core pd st deps = .ok (st2, pairs) → StEvolve st st2 := by
  intro deps
  induction deps with
  | nil =>
    intro st st2 pairs h
    simp only [process_deps_core, Except.ok.injEq, Prod.mk.injEq] at h
    rw [← h.1]
    exact stEvolve_refl st
  | cons dep rest ih =>
    intro st st2 pairs h
    simp only [process_deps_core] at h
    split at h
    · exact ih st st2 pairs h
    · split at h
      · exact Except.noConfusion h
      · rename_i st1 np hpd1
        split at h
        · exact Except.noConfusion h
        · rename_i st2' pairs' hrest
          simp only [Except.ok.injEq, Prod.mk.injEq] at h
          rw [← h.1]
          exact stEvolve_trans (hpd st dep st1 np hpd1) (ih st1 st2' pairs' hrest)

/-- `process_module_core` preserves `StEvolve`, given that the dependency
processor does. -/
theorem process_module_core_evolve
    (pd : BState → String → Except Err (BState × String))
    (hpd : ∀ st dep st1 np, pd st dep = .ok (st1, np) → StEvolve st st1)
    (t : FsPath) (m : Module) :
    ∀ st st1, process_module_core pd t m st = .ok st1 → StEvolve st st1 := by
  intro st st1 h
  simp only [process_module_core] at h
  split at h
  · exact Except.noConfusion h
  · rename_i st2 pairs hdeps
    have hev := process_deps_core_evolve pd hpd m.dependencies st st2 pairs hdeps
    split at h
    · rw [← Except.ok.inj h]; exact hev
    · rw [← Except.ok.inj h]
      exact stEvolve_trans hev (stEvolve_events st2 [.changePaths pairs t] (by simp [isAddRpathEvent]))

/-- `stEvolve_insert` for the exact event-appending shape the miss branch
of `process_dependency_core` produces. -/
theorem stEvolve_insert3 (st : BState) (k : String) (v : FsPath) (e1 e2 e3 : Event)
    (hk : lookupProc st.processed k = none) (hshape : ∃ r, k = "@rpath/" ++ r)
    (h1 : isAddRpathEvent e1 = false) (h2 : isAddRpathEvent e2 = false)
    (h3 : isAddRpathEvent e3 = false) :
    StEvolve st { st with processed := (k, v) :: st.processed,
                          events := st.events ++ [e1] ++ [e2] ++ [e3] } := by
  have hlist : st.events ++ [e1] ++ [e2] ++ [e3] = st.events ++ [e1, e2, e3] := by simp
  rw [hlist]
  refine stEvolve_insert st k v [e1, e2, e3] hk hshape ?_
  intro e he
  simp only [List.mem_cons, List.not_mem_nil, or_false] at he
  rcases he with rfl | rfl | rfl
  · exact h1
  · exact h2
  · exact h3

/-- `process_dependency_core` preserves `StEvolve`, given that the module
recursion does. -/
theorem process_dependency_core_evolve (ctx : Ctx) (rpaths : List FsPath)
    (recurse : FsPath → Module → BState → Except Err BState)
    (hrec : ∀ t m st st1, recurse t m st = .ok st1 → StEvolve st st1) :
    ∀ st dep st1 np, process_dependency_core ctx rpaths recurse st dep = .ok (st1, np) →
      StEvolve st st1 := by
  intro st dep st1 np h
  simp only [process_dependency_core] at h
  split at h
  · exact Except.noConfusion h
  · rename_i resolved root rel newPath hcomp
    split at h
    · rename_i existing hlook
      split at h
      · exact Except.noConfusion h
      · split at h
        · exact Except.noConfusion h
        · simp only [Except.ok.injEq, Prod.mk.injEq] at h
          rw [← h.1]
          exact stEvolve_refl st
    · rename_i hlook
      have hshape : ∃ r, newPath = "@rpath/" ++ r :=
        ⟨rel.renderRel, compute_new_path_shape ctx rpaths dep resolved root rel newPath hcomp⟩
      split at h
      · exact Except.noConfusion h
      · rename_i library hlib
        split at h
        · exact Except.noConfusion h
        · rename_i rootName hfn
          split at h
          · exact Except.noConfusion h
          · rename_i realRoot hcanon
            split at h
            · exact Except.noConfusion h
            · rename_i st4 hrec1
              have hev1 : StEvolve st st4 :=
                stEvolve_trans
                  (stEvolve_insert3 st newPath resolved _ _ _ hlook hshape
                    (by simp [isAddRpathEvent]) (by simp [isAddRpathEvent])
                    (by simp [isAddRpathEvent]))
                  (hrec _ _ _ _ hrec1)
              split at h
              · simp only [Except.ok.injEq, Prod.mk.injEq] at h
                rw [← h.1]
                exact stEvolve_trans hev1
                  (stEvolve_events st4
                    [.changeId newPath (((ctx.outPath.join "Contents").join "Frameworks").joinPath rel)]
                    (by simp [isAddRpathEvent]))
              · simp only [Except.ok.injEq, Prod.mk.injEq] at h
                rw [← h.1]
                exact hev1

/-- `process_module_fuel` preserves `StEvolve`, at every fuel. -/
theorem process_module_fuel_evolve (ctx : Ctx) (rpaths : List FsPath) :
    ∀ fuel t m st st1, process_module_fuel ctx rpaths fuel t m st = .ok st1 → StEvolve st st1 := by
  intro fuel
  induction fuel with
  | zero => intro t m st st1 h; exact Except.noConfusion h
  | succ f ih =>
    intro t m st st1 h
    exact process_module_core_evolve _
      (process_dependency_core_evolve ctx rpaths _ (fun t' m' s s' => ih t' m' s s')) t m st st1 h

/-- `process_dependency` preserves `StEvolve`. -/
theorem process_dependency_evolve (ctx : Ctx) (rpaths : List FsPath) (fuel : Nat)
    (st : BState) (dep : String) (st1 : BState) (np : String)
    (h : process_dependency ctx rpaths fuel st dep = .ok (st1, np)) : StEvolve st st1 :=
  process_dependency_core_evolve ctx rpaths _
    (fun t m s s' => process_module_fuel_evolve ctx rpaths fuel t m s s') st dep st1 np h

/-- `process_deps` preserves `StEvolve`. -/
theorem process_deps_evolve (ctx : Ctx) (rpaths : List FsPath) (fuel : Nat)
    (st : BState) (deps : List String) (st1 : BState) (pairs : List (String × String))
    (h : process_deps ctx rpaths fuel st deps = .ok (st1, pairs)) : StEvolve st st1 :=
  process_deps_core_evolve _
    (fun s dep s' np hh => process_dependency_core_evolve ctx rpaths _
      (fun t m a a' => process_module_fuel_evolve ctx rpaths fuel t m a a') s dep s' np hh)
    deps st st1 pairs h

/-- If a predicate implies another pointwise on a list, filtering by the
first yields at most as many elements. -/
theorem length_filter_mono {α : Type} (p q : α → Bool) (l : List α)
    (h : ∀ a ∈ l, p a = true → q a = true) :
    (l.filter p).length ≤ (l.filter q).length := by
  induction l with
  | nil => simp
  | cons a t ih =>
    have ht : ∀ b ∈ t, p b = true → q b = true :=
      fun b hb => h b (List.mem_cons_of_mem a hb)
    cases hp : p a with
    | true =>
      have hq := h a (List.mem_cons_self a t) hp
      simp only [List.filter_cons, hp, hq, if_true, List.length_cons]
      exact Nat.succ_le_succ (ih ht)
    | false =>
      cases hq : q a with
      | true =>
        simp only [List.filter_cons, hp, hq]
        exact Nat.le_succ_of_le (ih ht)
      | false =>
        simp only [List.filter_cons, hp, hq]
        exact ih ht

/-- Flipping one listed element from accepted to rejected strictly shrinks
a filter over a duplicate-free list. -/
theorem length_filter_lt {α : Type} [DecidableEq α] (p q : α → Bool) (l : List α) (k : α)
    (hnd : l.Nodup) (hk : k ∈ l) (hpk : p k = true) (hqk : q k = false)
    (hagree : ∀ a ∈ l, a ≠ k → q a = p a) :
    (l.filter q).length < (l.filter p).length := by
  induction l with
  | nil => cases hk
  | cons a t ih =>
    obtain ⟨hna, hndt⟩ := List.nodup_cons.mp hnd
    by_cases hak : a = k
    · subst hak
      have heq : t.filter q = t.filter p := by
        apply List.filter_congr
        intro b hb
        exact hagree b (List.mem_cons_of_mem a hb) (fun hba => hna (hba ▸ hb))
      simp only [List.filter_cons, hpk, hqk, if_true, List.length_cons, heq]
      exact Nat.lt_succ_self _
    · have hkt : k ∈ t := by
        rcases List.mem_cons.mp hk with h | h
        · exact absurd h.symm hak
        · exact h
      have haq : q a = p a := hagree a (List.mem_cons_self a t) hak
      have hrec := ih hndt hkt (fun b hb hbk => hagree b (List.mem_cons_of_mem a hb) hbk)
      cases hpa : p a with
      | true =>
        simp only [List.filter_cons, hpa, haq, if_true, List.length_cons]
        exact Nat.succ_lt_succ hrec
      | false =>
        simp only [List.filter_cons, hpa, haq]
        exact hrec

/-- The key `process_dependency` would compute for a reference, if its
prelude succeeds. -/
def depKeyOf (ctx : Ctx) (rpaths : List FsPath) (dep : String) : Option String :=
  match compute_new_path ctx rpaths dep with
  | .ok (_, _, _, newPath) => some newPath
  | .error _ => none

/-- All keys the run can ever insert while processing references drawn
from the universe `U`, without duplicates. -/
def keyList (ctx : Ctx) (rpaths : List FsPath) (U : List String) : List String :=
  (U.filterMap (depKeyOf ctx rpaths)).dedup

/-- The number of universe keys not yet present in `processed_libraries`:
the termination measure of the dependency walk. -/
def remaining (ctx : Ctx) (rpaths : List FsPath) (U : List String) (st : BState) : Nat :=
  ((keyList ctx rpaths U).filter (fun k => (lookupProc st.processed k).isNone)).length

theorem remaining_le_of_evolve (ctx : Ctx) (rpaths : List FsPath) (U : List String)
    {st st1 : BState} (h : StEvolve st st1) :
    remaining ctx rpaths U st1 ≤ remaining ctx rpaths U st := by
  apply length_filter_mono
  intro k _ hnone
  cases hcase : lookupProc st.processed k with
  | none => simp
  | some v =>
    rw [h.1 k v hcase] at hnone
    cases hnone

theorem remaining_lt_insert (ctx : Ctx) (rpaths : List FsPath) (U : List String)
    (st st1 : BState) (k : String) (v : FsPath)
    (hst1 : st1.processed = (k, v) :: st.processed)
    (hmem : k ∈ keyList ctx rpaths U) (hnone : lookupProc st.processed k = none) :
    remaining ctx rpaths U st1 < remaining ctx rpaths U st := by
  unfold remaining
  rw [hst1]
  apply length_filter_lt _ _ _ k ((U.filterMap (depKeyOf ctx rpaths)).nodup_dedup) hmem
  · simp [hnone]
  · show (lookupProc ((k, v) :: st.processed) k).isNone = false
    show (if k = k then some v else lookupProc st.processed k).isNone = false
    simp
  · intro a _ hak
    show (lookupProc ((k, v) :: st.processed) a).isNone = _
    show (if k = a then some v else lookupProc st.processed a).isNone = _
    rw [if_neg (fun h => hak h.symm)]

theorem mem_keyList (ctx : Ctx) (rpaths : List FsPath) (U : List String) (dep : String)
    (resolved root rel : FsPath) (newPath : String)
    (hdep : dep ∈ U)
    (hcomp : compute_new_path ctx rpaths dep = .ok (resolved, root, rel, newPath)) :
    newPath ∈ keyList ctx rpaths U := by
  unfold keyList
  rw [List.mem_dedup]
  exact List.mem_filterMap.mpr ⟨dep, hdep, by simp [depKeyOf, hcomp]⟩

theorem one_le_remaining (ctx : Ctx) (rpaths : List FsPath) (U : List String)
    (st : BState) (k : String)
    (hmem : k ∈ keyList ctx rpaths U) (hnone : lookupProc st.processed k = none) :
    1 ≤ remaining ctx rpaths U st := by
  have hmf : k ∈ (keyList ctx rpaths U).filter (fun k1 => (lookupProc st.processed k1).isNone) :=
    List.mem_filter.mpr ⟨hmem, by simp [hnone]⟩
  exact List.length_pos.mpr (List.ne_nil_of_mem hmf)

/-- `resolveGo` never produces the fuel artefact. -/
theorem resolveGo_ne_fuel (w : World) (ref : String) (all : List FsPath) :
    ∀ l, resolveGo w ref all l ≠ .error .outOfFuel := by
  intro l
  induction l with
  | nil => intro h; simp [resolveGo] at h
  | cons r rest ih =>
    intro h
    simp only [resolveGo] at h
    split at h
    · exact Except.noConfusion h
    · exact ih h

/-- `resolve` never produces the fuel artefact. -/
theorem resolve_ne_fuel (w : World) (rpaths : List FsPath) (ref : String) :
    resolve w rpaths ref ≠ .error .outOfFuel := by
  intro h
  simp only [resolve] at h
  split at h
  · exact Except.noConfusion h
  · exact resolveGo_ne_fuel w ref rpaths rpaths h

/-- `compute_new_path` never produces the fuel artefact. -/
theorem compute_new_path_ne_fuel (ctx : Ctx) (rpaths : List FsPath) (dep : String) :
    compute_new_path ctx rpaths dep ≠ .error .outOfFuel := by
  intro h
  simp only [compute_new_path] at h
  split at h
  · rename_i e hres
    simp only [Except.error.injEq] at h
    rw [h] at hres
    exact resolve_ne_fuel ctx.w rpaths dep hres
  · split at h
    · simp at h
    · split at h
      · simp at h
      · split at h
        · simp at h
        · exact Except.noConfusion h

/-- `is_same` never produces the fuel artefact. -/
theorem is_same_ne_fuel (w : World) (f1 f2 : FsPath) :
    is_same w f1 f2 ≠ .error .outOfFuel := by
  intro h
  simp only [is_same] at h
  split at h
  · simp at h
  · split at h
    · simp at h
    · split at h
      · exact Except.noConfusion h
      · exact Except.noConfusion h

/-- `extract_module_path` never produces the fuel artefact. -/
theorem extract_ne_fuel (line : String) :
    extract_module_path line ≠ .error .outOfFuel := by
  intro h
  simp only [extract_module_path] at h
  split at h
  · exact Except.noConfusion h
  · simp at h

/-- `collectPaths` never produces the fuel artefact. -/
theorem collectPaths_ne_fuel : ∀ ls, collectPaths ls ≠ .error .outOfFuel := by
  intro ls
  induction ls with
  | nil => intro h; exact Except.noConfusion h
  | cons l rest ih =>
    intro h
    simp only [collectPaths] at h
    split at h
    · rename_i e hx
      simp only [Except.error.injEq] at h
      rw [h] at hx
      exact extract_ne_fuel l hx
    · split at h
      · rename_i e hr
        simp only [Except.error.injEq] at h
        rw [h] at hr
        exact ih hr
      · exact Except.noConfusion h

/-- `load_library` never produces the fuel artefact. -/
theorem load_library_ne_fuel (w : World) (p : FsPath) :
    load_library w p ≠ .error .outOfFuel := by
  intro h
  simp only [load_library] at h
  split at h
  · rename_i e hfind
    simp only [Except.error.injEq] at h
    rw [h] at hfind
    simp only [find_module_paths] at hfind
    split at hfind
    · simp at hfind
    · exact collectPaths_ne_fuel _ hfind
  · simp at h
  · exact Except.noConfusion h

/-- `resolve` followed by `load_library`, as a pure description of a
reference's own dependency list in a given world. -/
def depsOfDep (ctx : Ctx) (rpaths : List FsPath) (dep : String) : List String :=
  match resolve ctx.w rpaths dep with
  | .error _ => []
  | .ok res =>
    match load_library ctx.w res with
    | .error _ => []
    | .ok lib => lib.module.dependencies

/-- The dependency universe `U` is closed under taking dependencies of its
members. -/
def DepClosed (ctx : Ctx) (rpaths : List FsPath) (U : List String) : Prop :=
  ∀ d ∈ U, ∀ d2 ∈ depsOfDep ctx rpaths d, d2 ∈ U

/-- The resolved path returned by `compute_new_path` is the one `resolve`
produced. -/
theorem compute_new_path_resolve (ctx : Ctx) (rpaths : List FsPath) (dep : String)
    (resolved root rel : FsPath) (newPath : String)
    (h : compute_new_path ctx rpaths dep = .ok (resolved, root, rel, newPath)) :
    resolve ctx.w rpaths dep = .ok resolved := by
  simp only [compute_new_path] at h
  split at h
  · exact Except.noConfusion h
  · rename_i res hres
    split at h
    · exact Except.noConfusion h
    · split at h
      · exact Except.noConfusion h
      · split at h
        · exact Except.noConfusion h
        · simp only [Except.ok.injEq, Prod.mk.injEq] at h
          rw [hres, h.1]

/-- At dependency level: with the universe closed and enough fuel for the
unprocessed keys, `process_dependency_core` never exhausts fuel. -/
theorem process_dependency_core_no_fuel (ctx : Ctx) (rpaths : List FsPath)
    (U : List String) (f : Nat)
    (hclosed : DepClosed ctx rpaths U)
    (hrec : ∀ t m st, (∀ d ∈ m.dependencies, d ∈ U) →
        remaining ctx rpaths U st < f →
        process_module_fuel ctx rpaths f t m st ≠ .error .outOfFuel) :
    ∀ st dep, dep ∈ U → remaining ctx rpaths U st ≤ f →
      process_dependency_core ctx rpaths (process_module_fuel ctx rpaths f) st dep ≠
        .error .outOfFuel := by
  intro st dep hdep hrem hcontra
  simp only [process_dependency_core] at hcontra
  split at hcontra
  · rename_i e hcomp
    simp only [Except.error.injEq] at hcontra
    rw [hcontra] at hcomp
    exact compute_new_path_ne_fuel ctx rpaths dep hcomp
  · rename_i resolved root rel newPath hcomp
    split at hcontra
    · rename_i existing hlook
      split at hcontra
      · rename_i e hsame
        simp only [Except.error.injEq] at hcontra
        rw [hcontra] at hsame
        exact is_same_ne_fuel ctx.w resolved existing hsame
      · split at hcontra
        · simp at hcontra
        · exact Except.noConfusion hcontra
    · rename_i hlook
      split at hcontra
      · rename_i e hlib
        simp only [Except.error.injEq] at hcontra
        rw [hcontra] at hlib
        exact load_library_ne_fuel ctx.w resolved hlib
      · rename_i library hlib
        split at hcontra
        · simp at hcontra
        · rename_i rootName hfn
          split at hcontra
          · simp at hcontra
          · rename_i realRoot hcanon
            split at hcontra
            · rename_i e hrec1
              simp only [Except.error.injEq] at hcontra
              rw [hcontra] at hrec1
              have hdeps_eq : depsOfDep ctx rpaths dep = library.module.dependencies := by
                simp only [depsOfDep,
                  compute_new_path_resolve ctx rpaths dep resolved root rel newPath hcomp, hlib]
              have hsubLib : ∀ d ∈ library.module.dependencies, d ∈ U := by
                intro d hd
                apply hclosed dep hdep d
                rw [hdeps_eq]
                exact hd
              have hmem := mem_keyList ctx rpaths U dep resolved root rel newPath hdep hcomp
              have hlt : remaining ctx rpaths U
                  { st with processed := (newPath, resolved) :: st.processed,
                            events := st.events ++ [.insert newPath resolved] ++
                              [.mkDirAll ((ctx.outPath.join "Contents").join "Frameworks")] ++
                              [.copyTree realRoot
                                (((ctx.outPath.join "Contents").join "Frameworks").join rootName)] } <
                  remaining ctx rpaths U st :=
                remaining_lt_insert ctx rpaths U st _ newPath resolved rfl hmem hlook
              exact hrec _ library.module _ hsubLib (Nat.lt_of_lt_of_le hlt hrem) hrec1
            · split at hcontra
              · exact Except.noConfusion hcontra
              · exact Except.noConfusion hcontra

/-- At dependency-list level: `process_deps_core` never exhausts fuel. -/
theorem process_deps_core_no_fuel (ctx : Ctx) (rpaths : List FsPath)
    (U : List String) (f : Nat)
    (hclosed : DepClosed ctx rpaths U)
    (hrec : ∀ t m st, (∀ d ∈ m.dependencies, d ∈ U) →
        remaining ctx rpaths U st < f →
        process_module_fuel ctx rpaths f t m st ≠ .error .outOfFuel) :
    ∀ deps st, (∀ d ∈ deps, d ∈ U) → remaining ctx rpaths U st ≤ f →
      process_deps_core
        (process_dependency_core ctx rpaths (process_module_fuel ctx rpaths f)) st deps ≠
        .error .outOfFuel := by
  intro deps
  induction deps with
  | nil => intro st _ _ hcontra; exact Except.noConfusion hcontra
  | cons dep rest ih =>
    intro st hsub hrem hcontra
    simp only [process_deps_core] at hcontra
    split at hcontra
    · exact ih st (fun d hd => hsub d (List.mem_cons_of_mem dep hd)) hrem hcontra
    · split at hcontra
      · rename_i e hpd
        simp only [Except.error.injEq] at hcontra
        rw [hcontra] at hpd
        exact process_dependency_core_no_fuel ctx rpaths U f hclosed hrec st dep
          (hsub dep (List.mem_cons_self dep rest)) hrem hpd
      · rename_i st1 np hpd
        split at hcontra
        · rename_i e hrest
          simp only [Except.error.injEq] at hcontra
          rw [hcontra] at hrest
          have hev : StEvolve st st1 :=
            process_dependency_core_evolve ctx rpaths _
              (fun t m s s1 => process_module_fuel_evolve ctx rpaths f t m s s1)
              st dep st1 np hpd
          exact ih st1 (fun d hd => hsub d (List.mem_cons_of_mem dep hd))
            (Nat.le_trans (remaining_le_of_evolve ctx rpaths U hev) hrem) hrest
        · exact Except.noConfusion hcontra

/-- With the universe closed under dependencies and strictly more fuel than
unprocessed universe keys, the module walk never exhausts fuel. -/
theorem process_module_fuel_no_fuel (ctx : Ctx) (rpaths : List FsPath)
    (U : List String) (hclosed : DepClosed ctx rpaths U) :
    ∀ f t m st, (∀ d ∈ m.dependencies, d ∈ U) →
      remaining ctx rpaths U st < f →
      process_module_fuel ctx rpaths f t m st ≠ .error .outOfFuel := by
  intro f
  induction f with
  | zero => intro t m st _ hrem; exact absurd hrem (Nat.not_lt_zero _)
  | succ f ih =>
    intro t m st hsub hrem hcontra
    have hrem1 : remaining ctx rpaths U st ≤ f := Nat.lt_succ_iff.mp hrem
    simp only [process_module_fuel, process_module_core] at hcontra
    split at hcontra
    · rename_i e hdeps
      simp only [Except.error.injEq] at hcontra
      rw [hcontra] at hdeps
      exact process_deps_core_no_fuel ctx rpaths U f hclosed ih m.dependencies st hsub hrem1 hdeps
    · split at hcontra
      · exact Except.noConfusion hcontra
      · exact Except.noConfusion hcontra

/-- `process_entry_tail` only appends events, given that the directory
recursion does. -/
theorem process_entry_tail_events (ctx : Ctx)
    (recurseDir : BState → FsPath → FsPath → Except Err BState)
    (hrec : ∀ st s d st1, recurseDir st s d = .ok st1 → ∃ δ, st1.events = st.events ++ δ) :
    ∀ st ep dest st1, process_entry_tail ctx recurseDir st ep dest = .ok st1 →
      ∃ δ, st1.events = st.events ++ δ := by
  intro st ep dest st1 h
  simp only [process_entry_tail] at h
  split at h
  · exact Except.noConfusion h
  · rename_i srcRes hcanon
    split at h
    · obtain ⟨δ, hδ⟩ := hrec _ _ _ _ h
      exact ⟨[.createDir dest] ++ δ, by rw [hδ]; simp⟩
    · split at h
      · exact Except.noConfusion h
      · rename_i c hc
        split at h
        · rw [← Except.ok.inj h]
          exact ⟨[.copyFile srcRes dest], rfl⟩
        · rw [← Except.ok.inj h]
          exact ⟨[.copyFile srcRes dest], rfl⟩

/-- `process_entry` only appends events, given that the directory recursion
does. -/
theorem process_entry_events (ctx : Ctx)
    (recurseDir : BState → FsPath → FsPath → Except Err BState)
    (hrec : ∀ st s d st1, recurseDir st s d = .ok st1 → ∃ δ, st1.events = st.events ++ δ) :
    ∀ st s d name st1, process_entry ctx recurseDir st s d name = .ok st1 →
      ∃ δ, st1.events = st.events ++ δ := by
  intro st s d name st1 h
  simp only [process_entry] at h
  split at h
  · exact Except.noConfusion h
  · rename_i isLink hmeta
    split at h
    · exact Except.noConfusion h
    · rename_i sn hsn
      split at h
      · rw [← Except.ok.inj h]
        exact ⟨[], by simp⟩
      · split at h
        · split at h
          · exact Except.noConfusion h
          · rename_i link hlink
            split at h
            · exact Except.noConfusion h
            · rename_i destRes hdr
              split at h
              · exact Except.noConfusion h
              · rename_i outRes hor
                split at h
                · rw [← Except.ok.inj h]
                  exact ⟨[.symlink link (d.join name)], rfl⟩
                · obtain ⟨δ, hδ⟩ := process_entry_tail_events ctx recurseDir hrec _ _ _ _ h
                  refine ⟨[.symlink link (d.join name), .removeFile (d.join name)] ++ δ, ?_⟩
                  rw [hδ]
                  simp
        · exact process_entry_tail_events ctx recurseDir hrec _ _ _ _ h

/-- The `process_dir` loop only appends events. -/
theorem process_entries_events (ctx : Ctx)
    (recurseDir : BState → FsPath → FsPath → Except Err BState)
    (hrec : ∀ st s d st1, recurseDir st s d = .ok st1 → ∃ δ, st1.events = st.events ++ δ) :
    ∀ names st s d st1, process_entries ctx recurseDir st s d names = .ok st1 →
      ∃ δ, st1.events = st.events ++ δ := by
  intro names
  induction names with
  | nil =>
    intro st s d st1 h
    rw [← Except.ok.inj h]
    exact ⟨[], by simp⟩
  | cons name rest ih =>
    intro st s d st1 h
    simp only [process_entries] at h
    split at h
    · exact Except.noConfusion h
    · rename_i stm hentry
      obtain ⟨δ1, hδ1⟩ := process_entry_events ctx recurseDir hrec _ _ _ _ _ hentry
      obtain ⟨δ2, hδ2⟩ := ih _ _ _ _ h
      exact ⟨δ1 ++ δ2, by rw [hδ2, hδ1]; simp⟩

/-- `process_dir_fuel` only appends events, at every fuel. -/
theorem process_dir_fuel_events (ctx : Ctx) :
    ∀ fuel st s d st1, process_dir_fuel ctx fuel st s d = .ok st1 →
      ∃ δ, st1.events = st.events ++ δ := by
  intro fuel
  induction fuel with
  | zero => intro st s d st1 h; exact Except.noConfusion h
  | succ f ih =>
    intro st s d st1 h
    simp only [process_dir_fuel] at h
    split at h
    · exact Except.noConfusion h
    · exact process_entries_events ctx (process_dir_fuel ctx f)
        (fun st2 s2 d2 st3 hh => ih st2 s2 d2 st3 hh) _ _ _ _ _ h

instance {ε α : Type} [DecidableEq ε] [DecidableEq α] : DecidableEq (Except ε α) := fun x y =>
  match x, y with
  | .ok a, .ok b =>
    if h : a = b then .isTrue (by rw [h]) else .isFalse (fun hh => h (Except.ok.inj hh))
  | .error a, .error b =>
    if h : a = b then .isTrue (by rw [h]) else .isFalse (fun hh => h (Except.error.inj hh))
  | .ok _, .error _ => .isFalse (fun hh => Except.noConfusion hh)
  | .error _, .ok _ => .isFalse (fun hh => Except.noConfusion hh)

/-- C5 counterexample: a file whose content is exactly the four bytes of
`MAGIC_64` is not smaller than 4 bytes and its first 4 bytes are a known
magic sequence, yet `is_executable_binary` classifies it as `false`,
because the source requires `meta.len() > 4` (strictly more than 4 bytes),
not `meta.len() >= 4` as the claim's "smaller than 4 bytes ⇒ false, else
compare the magic" policy would. -/
theorem c5_counterexample :
    is_executable_binary [0xfe, 0xed, 0xfa, 0xcf] = false
    ∧ ¬(([0xfe, 0xed, 0xfa, 0xcf] : List Nat).length < 4)
    ∧ ([0xfe, 0xed, 0xfa, 0xcf] : List Nat).take 4 = MAGIC_64 := by
  refine ⟨rfl, by decide, rfl⟩

/-- C5 (amended): `is_executable_binary` returns `true` exactly when the
file is strictly larger than 4 bytes and its first 4 bytes equal one of the
four linked-binary magic sequences, in either byte order; files of at most
4 bytes yield `false`, and no permission check is performed. -/
theorem c5_is_executable_binary_iff (content : List Nat) :
    is_executable_binary content = true ↔
      4 < content.length ∧
        (content.take 4 = MAGIC_FAT ∨ content.take 4 = CIGAM_FAT ∨
         content.take 4 = MAGIC_64 ∨ content.take 4 = CIGAM_64) := by
  unfold is_executable_binary
  split
  · rename_i hlen
    simp only [Nat.min_eq_left (Nat.le_of_lt hlen), beq_self_eq_true, Bool.true_and,
      Bool.or_eq_true, beq_iff_eq]
    constructor
    · intro h
      exact ⟨hlen, by tauto⟩
    · intro h
      tauto
  · rename_i hlen
    constructor
    · intro h
      exact absurd h (by simp)
    · intro h
      exact absurd h.1 hlen

/-- Rule 1 of the `FrameworkRootFinder` policy: the immediate parent
directory's name ends in `.framework`. -/
def parentFrameworkRule (p : FsPath) : Bool :=
  match p.parent with
  | some par =>
    match par.fileName with
    | some n => rustEndsWith n ".framework"
    | none => false
  | none => false

/-- Rule 2 of the `FrameworkRootFinder` policy: the grandparent directory
is literally named `Versions` and its parent's name ends in `.framework`. -/
def versionsFrameworkRule (p : FsPath) : Bool :=
  match p.parent with
  | some par =>
    match par.parent with
    | some gp =>
      match gp.fileName with
      | some gn =>
        if gn = "Versions" then
          match gp.parent with
          | some ggp =>
            match ggp.fileName with
            | some ggn => rustEndsWith ggn ".framework"
            | none => false
          | none => false
        else false
      | none => false
    | none => false
  | none => false

/-- C7: whenever `find_dependency_root` returns normally, its result is
governed by the two framework rules applied in order: if the immediate
parent's name ends in `.framework` the root is that parent; otherwise, if
the grandparent is named `Versions` and its parent's name ends in
`.framework`, the root is that great-grandparent; otherwise the root is
the path itself. -/
theorem c7_find_dependency_root_order (p r : FsPath)
    (h : find_dependency_root p = some r) :
    (parentFrameworkRule p = true ∧ p.parent = some r)
    ∨ (parentFrameworkRule p = false ∧ versionsFrameworkRule p = true ∧
        ∃ par gp, p.parent = some par ∧ par.parent = some gp ∧ gp.parent = some r)
    ∨ (parentFrameworkRule p = false ∧ versionsFrameworkRule p = false ∧ r = p) := by
  simp only [find_dependency_root] at h
  split at h
  · rename_i hpar
    exact Or.inr (Or.inr ⟨by simp [parentFrameworkRule, hpar],
      by simp [versionsFrameworkRule, hpar], (Option.some.inj h).symm⟩)
  · rename_i par hpar
    split at h
    · exact Option.noConfusion h
    · rename_i n hfn
      split at h
      · rename_i hfw
        exact Or.inl ⟨by simp [parentFrameworkRule, hpar, hfn, hfw],
          by rw [hpar]; exact h⟩
      · rename_i hfw
        have hfwF : rustEndsWith n ".framework" = false := by
          revert hfw; cases rustEndsWith n ".framework" <;> simp
        have hr1 : parentFrameworkRule p = false := by
          simp [parentFrameworkRule, hpar, hfn, hfwF]
        split at h
        · rename_i hgp
          exact Or.inr (Or.inr ⟨hr1, by simp [versionsFrameworkRule, hpar, hgp],
            (Option.some.inj h).symm⟩)
        · rename_i gp hgp
          split at h
          · exact Option.noConfusion h
          · rename_i gn hgn
            split at h
            · rename_i hver
              split at h
              · rename_i hggp
                exact Or.inr (Or.inr ⟨hr1,
                  by simp [versionsFrameworkRule, hpar, hgp, hgn, hver, hggp],
                  (Option.some.inj h).symm⟩)
              · rename_i ggp hggp
                split at h
                · exact Option.noConfusion h
                · rename_i ggn hggn
                  split at h
                  · rename_i hfw2
                    refine Or.inr (Or.inl ⟨hr1, ?_, par, gp, hpar, hgp, ?_⟩)
                    · simp [versionsFrameworkRule, hpar, hgp, hgn, hver, hggp, hggn, hfw2]
                    · rw [hggp]; exact h
                  · rename_i hfw2
                    have hfw2F : rustEndsWith ggn ".framework" = false := by
                      revert hfw2; cases rustEndsWith ggn ".framework" <;> simp
                    exact Or.inr (Or.inr ⟨hr1,
                      by simp [versionsFrameworkRule, hpar, hgp, hgn, hver, hggp, hggn, hfw2F],
                      (Option.some.inj h).symm⟩)
            · rename_i hver
              exact Or.inr (Or.inr ⟨hr1,
                by simp [versionsFrameworkRule, hpar, hgp, hgn, hver],
                (Option.some.inj h).symm⟩)

/-- The dependency path `/Lib/X.framework/X` used to witness C7. -/
def pC7 : FsPath := ⟨true, ["Lib", "X.framework", "X"]⟩

/-- The expected framework root `/Lib/X.framework` of `pC7`. -/
def rC7 : FsPath := ⟨true, ["Lib", "X.framework"]⟩

theorem c7_witness :
    (parentFrameworkRule pC7 = true ∧ pC7.parent = some rC7)
    ∨ (parentFrameworkRule pC7 = false ∧ versionsFrameworkRule pC7 = true ∧
        ∃ par gp, pC7.parent = some par ∧ par.parent = some gp ∧ gp.parent = some rC7)
    ∨ (parentFrameworkRule pC7 = false ∧ versionsFrameworkRule pC7 = false ∧ rC7 = pC7) :=
  c7_find_dependency_root_order pC7 rC7 (by decide)

/-- C10 counterexample: `find_dependency_root` applied to the filesystem
root `/` returns normally (the path itself) although `/` has no parent at
all, let alone a parent with a named final component — refuting "it
returns normally only for paths whose parent has a named final
component". -/
theorem c10_counterexample :
    find_dependency_root ⟨true, []⟩ = some ⟨true, []⟩
    ∧ FsPath.parent ⟨true, []⟩ = none := ⟨rfl, rfl⟩

/-- C10 (amended): `find_dependency_root` panics (modelled as `none`) for
every path whose parent exists but has no final name — e.g. a file
directly under the filesystem root — and it returns normally only for
paths that either have no parent at all or whose parent has a named final
component. -/
theorem c10_find_dependency_root_partiality :
    (∀ p par, p.parent = some par → par.fileName = none →
      find_dependency_root p = none)
    ∧ (∀ p r, find_dependency_root p = some r →
        p.parent = none ∨ ∃ par n, p.parent = some par ∧ par.fileName = some n) := by
  constructor
  · intro p par hpar hfn
    simp [find_dependency_root, hpar, hfn]
  · intro p r h
    cases hpar : p.parent with
    | none => exact Or.inl rfl
    | some par =>
      cases hfn : par.fileName with
      | none =>
        rw [show find_dependency_root p = none by simp [find_dependency_root, hpar, hfn]] at h
        exact Option.noConfusion h
      | some n => exact Or.inr ⟨par, n, rfl, hfn⟩

theorem c10_witness :
    find_dependency_root ⟨true, ["libfoo.dylib"]⟩ = none :=
  c10_find_dependency_root_partiality.1 ⟨true, ["libfoo.dylib"]⟩ ⟨true, []⟩ rfl rfl

/-- The `ModulePath` a well-formed `otool -L` entry yields: everything
before the first space of the trimmed line. -/
def extractedPath (l : String) : String := ⟨(rustTrim l).data.takeWhile (fun c => c ≠ ' ')⟩

theorem extract_module_path_eq (l : String) :
    extract_module_path l =
      if (rustTrim l).data.contains ' ' then .ok (extractedPath l)
      else .error (.malformedOtool (rustTrim l)) := rfl

theorem collectPaths_cons_bad (l : String) (rest : List String)
    (hc : (rustTrim l).data.contains ' ' = false) :
    collectPaths (l :: rest) = .error (.malformedOtool (rustTrim l)) := by
  have hcm : ' ' ∉ (rustTrim l).data := by simpa using hc
  simp [collectPaths, extract_module_path_eq, hcm]

theorem collectPaths_cons_good (l : String) (rest : List String)
    (hc : (rustTrim l).data.contains ' ' = true) :
    collectPaths (l :: rest) =
      match collectPaths rest with
      | .error e => .error e
      | .ok ms => .ok (extractedPath l :: ms) := by
  have hcm : ' ' ∈ (rustTrim l).data := by simpa using hc
  simp [collectPaths, extract_module_path_eq, hcm]

/-- `collectPaths` succeeds exactly when every line has a space. -/
theorem collectPaths_ok_iff (ls : List String) :
    (∃ v, collectPaths ls = .ok v) ↔ ∀ l ∈ ls, (rustTrim l).data.contains ' ' = true := by
  induction ls with
  | nil =>
    constructor
    · intro _ l hl
      cases hl
    · intro _
      exact ⟨[], rfl⟩
  | cons l rest ih =>
    cases hc : (rustTrim l).data.contains ' ' with
    | false =>
      rw [collectPaths_cons_bad l rest hc]
      constructor
      · rintro ⟨v, hv⟩
        exact Except.noConfusion hv
      · intro hall
        exact absurd (hall l (List.mem_cons_self l rest)) (by simpa using hc)
    | true =>
      rw [collectPaths_cons_good l rest hc]
      constructor
      · rintro ⟨v, hv⟩
        split at hv
        · exact Except.noConfusion hv
        · rename_i ms hms
          intro l2 hl2
          rcases List.mem_cons.mp hl2 with rfl | hl2
          · exact hc
          · exact (ih.mp ⟨ms, hms⟩) l2 hl2
      · intro hall
        obtain ⟨ms, hms⟩ := ih.mpr (fun l2 hl2 => hall l2 (List.mem_cons_of_mem l hl2))
        exact ⟨extractedPath l :: ms, by rw [hms]⟩

/-- On success, `collectPaths` yields the space-prefix of every line. -/
theorem collectPaths_ok_val : ∀ ls v, collectPaths ls = .ok v → v = ls.map extractedPath := by
  intro ls
  induction ls with
  | nil =>
    intro v h
    rw [List.map_nil]
    exact (Except.ok.inj h).symm
  | cons l rest ih =>
    intro v h
    cases hc : (rustTrim l).data.contains ' ' with
    | false =>
      rw [collectPaths_cons_bad l rest hc] at h
      exact Except.noConfusion h
    | true =>
      rw [collectPaths_cons_good l rest hc] at h
      split at h
      · exact Except.noConfusion h
      · rename_i ms hms
        rw [List.map_cons, ← Except.ok.inj h, ih ms hms]

theorem find_module_paths_eq (w : World) (p : FsPath) (lines : List String)
    (hotool : w.otool p = some lines) :
    find_module_paths w p = collectPaths (lines.drop 1) := by
  simp [find_module_paths, hotool, parse_module_paths]

/-- C9 (amended): given the introspection tool's output, `load_library` and
`load_executable` fail with a structural error exactly when the output
minus its header line has zero entries, or some entry's trimmed line
contains no space character (U+0020, the character the source splits on);
otherwise every entry's `ModulePath` is the part before the first space,
and `load_library` takes the first entry as the install identity, excluded
from the dependency list. -/
theorem c9_module_loader_parsing (w : World) (p : FsPath) (lines : List String)
    (hotool : w.otool p = some lines) :
    ((∃ e, load_library w p = .error e) ↔
        (lines.drop 1 = [] ∨ ∃ l ∈ lines.drop 1, (rustTrim l).data.contains ' ' = false))
    ∧ ((∃ e, load_executable w p = .error e) ↔
        (lines.drop 1 = [] ∨ ∃ l ∈ lines.drop 1, (rustTrim l).data.contains ' ' = false))
    ∧ (∀ lib, load_library w p = .ok lib →
        ∃ hd tl, lines.drop 1 = hd :: tl ∧ lib.install_name = extractedPath hd ∧
          lib.module.dependencies = tl.map extractedPath ∧ lib.module.path = p)
    ∧ (∀ m, load_executable w p = .ok m →
        m.dependencies = (lines.drop 1).map extractedPath ∧ m.path = p) := by
  have hfind := find_module_paths_eq w p lines hotool
  cases hres : collectPaths (lines.drop 1) with
  | error e0 =>
    have hbad : ∃ l ∈ lines.drop 1, (rustTrim l).data.contains ' ' = false := by
      by_contra hno
      push_neg at hno
      have hall : ∀ l ∈ lines.drop 1, (rustTrim l).data.contains ' ' = true := by
        intro l hl
        have := hno l hl
        revert this
        cases (rustTrim l).data.contains ' ' <;> simp
      obtain ⟨v, hv⟩ := (collectPaths_ok_iff (lines.drop 1)).mpr hall
      rw [hres] at hv
      exact Except.noConfusion hv
    have hlib : load_library w p = .error e0 := by
      unfold load_library
      rw [hfind, hres]
    have hexe : load_executable w p = .error e0 := by
      unfold load_executable
      rw [hfind, hres]
    refine ⟨⟨fun _ => Or.inr hbad, fun _ => ⟨e0, hlib⟩⟩,
      ⟨fun _ => Or.inr hbad, fun _ => ⟨e0, hexe⟩⟩, ?_, ?_⟩
    · intro lib h
      rw [hlib] at h
      exact Except.noConfusion h
    · intro m h
      rw [hexe] at h
      exact Except.noConfusion h
  | ok v =>
    have hall : ∀ l ∈ lines.drop 1, (rustTrim l).data.contains ' ' = true :=
      (collectPaths_ok_iff (lines.drop 1)).mp ⟨v, hres⟩
    have hval : v = (lines.drop 1).map extractedPath := collectPaths_ok_val _ v hres
    cases v with
    | nil =>
      have hls : lines.drop 1 = [] := List.map_eq_nil_iff.mp hval.symm
      have hlib : load_library w p = .error (.invalidOtoolOutput p) := by
        unfold load_library
        rw [hfind, hres]
      have hexe : load_executable w p = .error (.invalidOtoolOutput p) := by
        unfold load_executable
        rw [hfind, hres]
      refine ⟨⟨fun _ => Or.inl hls, fun _ => ⟨_, hlib⟩⟩,
        ⟨fun _ => Or.inl hls, fun _ => ⟨_, hexe⟩⟩, ?_, ?_⟩
      · intro lib h
        rw [hlib] at h
        exact Except.noConfusion h
      · intro m h
        rw [hexe] at h
        exact Except.noConfusion h
    | cons hd0 tl0 =>
      obtain ⟨hd, tl, hlseq, hhd, htl⟩ :
          ∃ hd tl, lines.drop 1 = hd :: tl ∧ extractedPath hd = hd0 ∧
            tl.map extractedPath = tl0 := by
        cases hls : lines.drop 1 with
        | nil => rw [hls] at hval; exact absurd hval (by simp)
        | cons a as =>
          rw [hls, List.map_cons, List.cons.injEq] at hval
          exact ⟨a, as, rfl, hval.1.symm, hval.2.symm⟩
      have hlib : load_library w p = .ok ⟨⟨p, tl0⟩, hd0⟩ := by
        unfold load_library
        rw [hfind, hres]
      have hexe : load_executable w p = .ok ⟨p, hd0 :: tl0⟩ := by
        unfold load_executable
        rw [hfind, hres]
      have hnonempty : lines.drop 1 ≠ [] := by
        rw [hlseq]
        exact List.cons_ne_nil hd tl
      refine ⟨iff_of_false ?_ ?_, iff_of_false ?_ ?_, ?_, ?_⟩
      · rintro ⟨e, he⟩
        rw [hlib] at he
        exact Except.noConfusion he
      · rintro (h | ⟨l, hl, hc⟩)
        · exact hnonempty h
        · rw [hall l hl] at hc
          exact Bool.noConfusion hc
      · rintro ⟨e, he⟩
        rw [hexe] at he
        exact Except.noConfusion he
      · rintro (h | ⟨l, hl, hc⟩)
        · exact hnonempty h
        · rw [hall l hl] at hc
          exact Bool.noConfusion hc
      · intro lib h
        rw [hlib] at h
        rw [← Except.ok.inj h]
        exact ⟨hd, tl, hlseq, hhd.symm, htl.symm, rfl⟩
      · intro m h
        rw [hexe] at h
        rw [← Except.ok.inj h]
        refine ⟨?_, rfl⟩
        rw [hlseq, List.map_cons, hhd, htl]

/-- A world in which every oracle fails or is empty; concrete worlds for
witnesses override individual fields. -/
def emptyWorld : World :=
  { pathExists := fun _ => false, isDir := fun _ => false, content := fun _ => none,
    canon := fun _ => none, otool := fun _ => none, readDir := fun _ => none,
    symlinkMeta := fun _ => none, readLink := fun _ => none }

/-- Binary inspected in the C9 counterexample. -/
def pC9 : FsPath := ⟨true, ["bin"]⟩

/-- `otool -L` output whose single entry separates the path with a tab
rather than a space. -/
def linesC9 : List String := ["header", "foo\tbar"]

def wC9 : World :=
  { emptyWorld with otool := fun p => if p = pC9 then some linesC9 else none }

/-- C9 counterexample: an entry `foo<TAB>bar` does have a whitespace
boundary (the tab), and the output has a nonzero number of entries, yet
`load_executable` fails with a malformed-output error — the source splits
on the space character only (`line.find(' ')`), not on general
whitespace. -/
theorem c9_counterexample :
    load_executable wC9 pC9 = .error (.malformedOtool "foo\tbar")
    ∧ linesC9.drop 1 ≠ []
    ∧ ∀ l ∈ linesC9.drop 1, l.data.any Char.isWhitespace = true := by
  refine ⟨by decide, by decide, by decide⟩

/-- Library inspected in the C9 witness. -/
def pC9w : FsPath := ⟨true, ["opt", "libA.dylib"]⟩

/-- Well-formed `otool -L` output for the C9 witness. -/
def linesC9w : List String :=
  ["header", "@rpath/libA.dylib (compatibility version 1.0.0)",
   "/usr/lib/libSystem.B.dylib (compatibility version 1.0.0)"]

def wC9w : World :=
  { emptyWorld with otool := fun p => if p = pC9w then some linesC9w else none }

/-- The parsed library the C9 witness expects. -/
def libC9 : Library := ⟨⟨pC9w, ["/usr/lib/libSystem.B.dylib"]⟩, "@rpath/libA.dylib"⟩

theorem c9_witness :
    ∃ hd tl, linesC9w.drop 1 = hd :: tl ∧ libC9.install_name = extractedPath hd ∧
      libC9.module.dependencies = tl.map extractedPath ∧ libC9.module.path = pC9w :=
  (c9_module_loader_parsing wC9w pC9w linesC9w (by decide)).2.2.1 libC9 (by decide)

/-- The root loop of `PathResolver::resolve` returns the substitution of
the first configured root whose substituted path exists, in configuration
order, and the structured failure when none does. -/
theorem resolveGo_find (w : World) (ref : String) (all : List FsPath) :
    ∀ l, resolveGo w ref all l =
      match l.find? (fun r => w.pathExists (FsPath.ofString (rustReplaceRpath ref r.render))) with
      | some r => .ok (FsPath.ofString (rustReplaceRpath ref r.render))
      | none => .error (.pathResolve ref all) := by
  intro l
  induction l with
  | nil => rfl
  | cons r rest ih =>
    simp only [resolveGo, List.find?]
    cases hx : w.pathExists (FsPath.ofString (rustReplaceRpath ref r.render)) with
    | true => simp [hx]
    | false => simp [hx, ih]

/-- C4 (amended): `PathResolver::resolve` returns a reference unchanged
whenever the reference itself names an existing path — whether or not it is
absolute; otherwise it substitutes every occurrence of the `@rpath` token
with each configured root in configuration order, returns the first
substitution that names an existing path, and fails with a
`PathResolutionFailure` carrying the reference and the attempted roots
exactly when no such substitution exists. -/
theorem c4_path_resolver (w : World) (rpaths : List FsPath) (reference : String) :
    (w.pathExists (FsPath.ofString reference) = true →
        resolve w rpaths reference = .ok (FsPath.ofString reference))
    ∧ (w.pathExists (FsPath.ofString reference) = false →
        (∀ r, rpaths.find?
            (fun r => w.pathExists (FsPath.ofString (rustReplaceRpath reference r.render))) =
              some r →
            resolve w rpaths reference =
              .ok (FsPath.ofString (rustReplaceRpath reference r.render)))
        ∧ (rpaths.find?
            (fun r => w.pathExists (FsPath.ofString (rustReplaceRpath reference r.render))) =
              none →
            resolve w rpaths reference = .error (.pathResolve reference rpaths))) := by
  constructor
  · intro h
    simp [resolve, h]
  · intro hne
    constructor
    · intro r hfind
      simp only [resolve, hne, Bool.false_eq_true, if_false]
      rw [resolveGo_find w reference rpaths rpaths, hfind]
    · intro hfind
      simp only [resolve, hne, Bool.false_eq_true, if_false]
      rw [resolveGo_find w reference rpaths rpaths, hfind]

/-- World for the C4 counterexample: the relative reference `@rpath/x`
itself exists as a path (e.g. a directory literally named `@rpath` in the
working directory), and nothing else does. -/
def wC4 : World :=
  { emptyWorld with pathExists := fun p => decide (p = FsPath.ofString "@rpath/x") }

/-- C4 counterexample: the reference `@rpath/x` is not an absolute path and
no `@rpath` substitution against the configured root `/r` names an existing
path, yet `resolve` returns the reference unchanged instead of the
`PathResolutionFailure` the claim requires — the source tests bare
existence of the reference, not absoluteness. -/
theorem c4_counterexample :
    resolve wC4 [FsPath.ofString "/r"] "@rpath/x" = .ok (FsPath.ofString "@rpath/x")
    ∧ (FsPath.ofString "@rpath/x").absolute = false
    ∧ wC4.pathExists
        (FsPath.ofString (rustReplaceRpath "@rpath/x" (FsPath.ofString "/r").render)) =
        false := by
  refine ⟨by decide, by decide, by decide⟩

/-- World for the C4 witness: only the substituted path `/r/x` exists. -/
def wC4w : World :=
  { emptyWorld with pathExists := fun p => decide (p = FsPath.ofString "/r/x") }

theorem c4_witness :
    resolve wC4w [FsPath.ofString "/r"] "@rpath/x" =
      .ok (FsPath.ofString (rustReplaceRpath "@rpath/x" (FsPath.ofString "/r").render)) :=
  ((c4_path_resolver wC4w [FsPath.ofString "/r"] "@rpath/x").2 (by decide)).1
    (FsPath.ofString "/r") (by decide)

/-- C1: when `process_dependency` computes a new `ModulePath` that is
already a key of `processed_libraries`, it copies nothing: if the newly
resolved source is byte-identical (same size, then same full content) to
the recorded original source, the call is a no-op returning the new
`ModulePath` with the state untouched; if the contents differ, it fails
immediately with the version-conflict error.  Moreover every recorded
entry survives any successful `process_dependency` call, which is why two
executables sharing a local dependency yield exactly one copy of its root,
regardless of processing order. -/
theorem c1_dedup_and_conflict :
    (∀ ctx rpaths fuel st dep resolved root rel newPath existing c1 c2,
      compute_new_path ctx rpaths dep = .ok (resolved, root, rel, newPath) →
      lookupProc st.processed newPath = some existing →
      ctx.w.content resolved = some c1 →
      ctx.w.content existing = some c2 →
      ((c1 = c2 → process_dependency ctx rpaths fuel st dep = .ok (st, newPath))
       ∧ (c1 ≠ c2 → process_dependency ctx rpaths fuel st dep =
            .error (.versionConflict resolved existing))))
    ∧ (∀ ctx rpaths fuel st dep st1 np,
        process_dependency ctx rpaths fuel st dep = .ok (st1, np) →
        ∀ k v, lookupProc st.processed k = some v → lookupProc st1.processed k = some v) := by
  constructor
  · intro ctx rpaths fuel st dep resolved root rel newPath existing c1 c2 hcomp hlook hc1 hc2
    constructor
    · intro hceq
      have hsame : is_same ctx.w resolved existing = .ok true := by
        simp [is_same, hc1, hc2, hceq]
      simp [process_dependency, process_dependency_core, hcomp, hlook, hsame]
    · intro hcne
      have hsame : is_same ctx.w resolved existing = .ok false := by
        by_cases hlen : c1.length = c2.length
        · have hbeq : (c1 == c2) = false := by
            simp [hcne]
          simp [is_same, hc1, hc2, hlen, hbeq]
        · simp [is_same, hc1, hc2, hlen]
      simp [process_dependency, process_dependency_core, hcomp, hlook, hsame]
  · intro ctx rpaths fuel st dep st1 np h
    exact (process_dependency_evolve ctx rpaths fuel st dep st1 np h).1

/-- The resolved on-disk location of `libz.dylib` in the C1 witness. -/
def pzC1 : FsPath := ⟨true, ["opt", "lib", "libz.dylib"]⟩

/-- World for the C1 witness: `/opt/lib/libz.dylib` exists with content
`[1, 2, 3]`. -/
def wC1 : World :=
  { emptyWorld with
    pathExists := fun p => decide (p = pzC1),
    content := fun p => if p = pzC1 then some [1, 2, 3] else none }

def ctxC1 : Ctx := ⟨wC1, ⟨true, ["src", "My.app"]⟩, ⟨true, ["out", "My.app"]⟩⟩

/-- State in which `@rpath/libz.dylib` has already been processed from the
same source. -/
def stC1 : BState := ⟨[("@rpath/libz.dylib", pzC1)], [], []⟩

theorem c1_witness :
    process_dependency ctxC1 [⟨true, ["opt", "lib"]⟩] 0 stC1 "@rpath/libz.dylib" =
      .ok (stC1, "@rpath/libz.dylib") :=
  ((c1_dedup_and_conflict.1 ctxC1 [⟨true, ["opt", "lib"]⟩] 0 stC1 "@rpath/libz.dylib"
      pzC1 pzC1 ⟨false, ["libz.dylib"]⟩ "@rpath/libz.dylib" pzC1 [1, 2, 3] [1, 2, 3]
      (by decide) (by decide) (by decide) (by decide)).1 rfl)

/-- C3: a system dependency is skipped outright by the dependency loop —
processing a list beginning with it is literally the same computation as
processing the list without it, so it is never copied, never link-edited
and never inserted into `processed_libraries`; and every key a successful
module walk adds to `processed_libraries` is an `@rpath/…` key, never a
system reference. -/
theorem c3_system_exclusion :
    (∀ ctx rpaths fuel st dep rest, is_system dep = true →
        process_deps ctx rpaths fuel st (dep :: rest) =
          process_deps ctx rpaths fuel st rest)
    ∧ (∀ ctx rpaths fuel t m st st1,
        process_module ctx rpaths fuel t m st = .ok st1 →
        ∀ k, (lookupProc st1.processed k).isSome = true →
          (lookupProc st.processed k).isSome = true ∨ is_system k = false) := by
  constructor
  · intro ctx rpaths fuel st dep rest hsys
    simp [process_deps, process_deps_core, hsys]
  · intro ctx rpaths fuel t m st st1 h k hk
    have hev := process_module_fuel_evolve ctx rpaths fuel t m st st1 h
    rcases hev.2.1 k hk with h1 | ⟨r, hr⟩
    · exact Or.inl h1
    · exact Or.inr (hr ▸ rpath_key_not_system r)

/-- A context whose oracles all fail; enough for runs that never touch the
filesystem. -/
def ctxTrivial : Ctx := ⟨emptyWorld, ⟨true, ["src"]⟩, ⟨true, ["out"]⟩⟩

/-- The initial bundler state. -/
def st0 : BState := ⟨[], [], []⟩

theorem c3_witness :
    process_deps ctxTrivial [] 0 st0 ["/usr/lib/libSystem.B.dylib"] =
      process_deps ctxTrivial [] 0 st0 [] :=
  c3_system_exclusion.1 ctxTrivial [] 0 st0 "/usr/lib/libSystem.B.dylib" [] (by decide)

/-- Resolved location of `L.dylib` in the C2 counterexample. -/
def pL : FsPath := ⟨true, ["opt", "lib", "L.dylib"]⟩

/-- World for the C2 counterexample: one local library with only system
dependencies of its own. -/
def wC2x : World :=
  { emptyWorld with
    pathExists := fun p => decide (p = pL),
    canon := fun p => if p = pL then some pL else none,
    otool := fun p =>
      if p = pL then
        some ["hdr", "@rpath/L.dylib (compatibility version 1.0.0)",
              "/usr/lib/libSystem.B.dylib (compatibility version 1.0.0)"]
      else none }

def ctxC2x : Ctx := ⟨wC2x, ⟨true, ["src", "My.app"]⟩, ⟨true, ["out", "My.app"]⟩⟩

/-- `Contents/Frameworks` of the C2 counterexample's output bundle. -/
def fwC2 : FsPath := ⟨true, ["out", "My.app", "Contents", "Frameworks"]⟩

/-- C2 counterexample: in the recorded trace of a fresh dependency, the
`processed_libraries` insertion (the marking) is the FIRST event, occurring
before the root is copied and before the recursive processing — the
dependency is not "fully resolved (copied, identity-fixed, recursively
processed) before being marked as done"; it is marked first, which is
precisely what makes cyclic graphs terminate. -/
theorem c2_counterexample :
    process_dependency ctxC2x [⟨true, ["opt", "lib"]⟩] 1 st0 "@rpath/L.dylib" =
      .ok (⟨[("@rpath/L.dylib", pL)], [],
            [.insert "@rpath/L.dylib" pL, .mkDirAll fwC2, .copyTree pL (fwC2.join "L.dylib")]⟩,
           "@rpath/L.dylib") := by
  decide

/-- C2 (amended): the recursive dependency processing terminates on every
finite dependency graph, including cyclic ones: with the dependency
universe closed under taking dependencies and strictly more fuel than
there are unprocessed universe keys, the walk never exhausts fuel — the
mechanism being that each dependency is marked in `processed_libraries`
before its root is copied and before it is recursively processed — and a
dependency whose new `ModulePath` is already present in that map is never
re-walked: the call returns with the state untouched. -/
theorem c2_termination_and_visited :
    (∀ ctx rpaths U fuel t m st, DepClosed ctx rpaths U →
        (∀ d ∈ m.dependencies, d ∈ U) →
        remaining ctx rpaths U st < fuel →
        process_module ctx rpaths fuel t m st ≠ .error .outOfFuel)
    ∧ (∀ ctx rpaths fuel st dep resolved root rel newPath existing,
        compute_new_path ctx rpaths dep = .ok (resolved, root, rel, newPath) →
        lookupProc st.processed newPath = some existing →
        ∀ st1 np, process_dependency ctx rpaths fuel st dep = .ok (st1, np) →
          st1 = st ∧ np = newPath) := by
  constructor
  · intro ctx rpaths U fuel t m st hclosed hsub hrem
    exact process_module_fuel_no_fuel ctx rpaths U hclosed fuel t m st hsub hrem
  · intro ctx rpaths fuel st dep resolved root rel newPath existing hcomp hlook st1 np h
    simp only [process_dependency, process_dependency_core, hcomp, hlook] at h
    split at h
    · exact Except.noConfusion h
    · rename_i same hsame
      split at h
      · exact Except.noConfusion h
      · simp only [Except.ok.injEq, Prod.mk.injEq] at h
        exact ⟨h.1.symm, h.2.symm⟩

/-- Resolved locations of the two mutually-dependent libraries in the C2
witness. -/
def pA : FsPath := ⟨true, ["opt", "lib", "A.dylib"]⟩

def pB : FsPath := ⟨true, ["opt", "lib", "B.dylib"]⟩

/-- A cyclic world: `A.dylib` depends on `B.dylib` and vice versa. -/
def wC2 : World :=
  { emptyWorld with
    pathExists := fun p => decide (p = pA) || decide (p = pB),
    content := fun p => if p = pA then some [1] else if p = pB then some [2] else none,
    canon := fun p => if p = pA then some pA else if p = pB then some pB else none,
    otool := fun p =>
      if p = pA then
        some ["hdr", "@rpath/A.dylib (compatibility version 1.0.0)",
              "@rpath/B.dylib (compatibility version 1.0.0)"]
      else if p = pB then
        some ["hdr", "@rpath/B.dylib (compatibility version 1.0.0)",
              "@rpath/A.dylib (compatibility version 1.0.0)"]
      else none }

def ctxC2 : Ctx := ⟨wC2, ⟨true, ["src", "My.app"]⟩, ⟨true, ["out", "My.app"]⟩⟩

/-- Dependency universe of the cyclic C2 witness world. -/
def UC2 : List String := ["@rpath/A.dylib", "@rpath/B.dylib"]

theorem c2_witness :
    process_module ctxC2 [⟨true, ["opt", "lib"]⟩] 3 ⟨true, ["out", "My.app", "exe"]⟩
      ⟨⟨true, ["src", "exe"]⟩, ["@rpath/A.dylib"]⟩ st0 ≠ .error .outOfFuel :=
  c2_termination_and_visited.1 ctxC2 [⟨true, ["opt", "lib"]⟩] UC2 3 _ _ st0
    (by unfold DepClosed; decide) (by decide) (by decide)

/-- Number of `-add_rpath` instructions in an event list. -/
def countAddRpath (es : List Event) : Nat := (es.filter isAddRpathEvent).length

/-- C6: a successful `process_executable` issues exactly one
`-add_rpath` link-edit instruction when the executable's dependency list
contains a local (non-system) dependency and none otherwise; the single
instruction is the last event issued, and its search path is
`@executable_path/<relative path from the executable's output location to
Contents/Frameworks>`. -/
theorem c6_executable_rpath :
    ∀ ctx fuel st exe st1 exeCanon m,
      ctx.w.canon exe = some exeCanon →
      load_executable ctx.w exeCanon = .ok m →
      process_executable ctx fuel st exe = .ok st1 →
      ∃ δ, st1.events = st.events ++ δ ∧
        countAddRpath δ = (if m.dependencies.any (fun d => !(is_system d)) then 1 else 0) ∧
        (m.dependencies.any (fun d => !(is_system d)) = true →
          ∃ δ0 relative targetParent rp,
            diff_paths exe ctx.srcPath = some relative ∧
            (ctx.outPath.joinPath relative).parent = some targetParent ∧
            diff_paths ((ctx.outPath.join "Contents").join "Frameworks") targetParent =
              some rp ∧
            δ = δ0 ++ [.addRpath ((FsPath.ofString "@executable_path").joinPath rp)
                        (ctx.outPath.joinPath relative)] ∧
            countAddRpath δ0 = 0) := by
  intro ctx fuel st exe st1 exeCanon m hcanon hload h
  simp only [process_executable] at h
  split at h
  · exact Except.noConfusion h
  · rename_i relative hrel
    split at h
    · exact Except.noConfusion h
    · rename_i exeCanon2 hcanon2
      rw [hcanon] at hcanon2
      obtain rfl : exeCanon2 = exeCanon := (Option.some.inj hcanon2).symm
      split at h
      · exact Except.noConfusion h
      · rename_i rpathRoot hparent
        split at h
        · exact Except.noConfusion h
        · rename_i m2 hload2
          rw [hload] at hload2
          have heq2 : m2 = m := (Except.ok.inj hload2).symm
          rw [heq2] at h
          split at h
          · exact Except.noConfusion h
          · rename_i stM hpm
            obtain ⟨-, -, ⟨δm, hδm, hnoadd⟩, -⟩ :=
              process_module_fuel_evolve ctx [rpathRoot] fuel _ m st stM hpm
            have hfilter : δm.filter isAddRpathEvent = [] := by
              rw [List.filter_eq_nil_iff]
              intro e he
              simp [hnoadd e he]
            split at h
            · rename_i hlocal
              split at h
              · exact Except.noConfusion h
              · rename_i targetParent htp
                split at h
                · exact Except.noConfusion h
                · rename_i rp hrp
                  rw [← Except.ok.inj h]
                  refine ⟨δm ++ [.addRpath ((FsPath.ofString "@executable_path").joinPath rp)
                    (ctx.outPath.joinPath relative)], ?_, ?_, ?_⟩
                  · show stM.events ++ _ = _
                    rw [hδm, List.append_assoc]
                  · simp [countAddRpath, List.filter_append, hfilter, hlocal, isAddRpathEvent]
                  · intro _
                    exact ⟨δm, relative, targetParent, rp, hrel, htp, hrp, rfl,
                      by simp [countAddRpath, hfilter]⟩
            · rename_i hlocal
              rw [← Except.ok.inj h]
              have hlocalF : m.dependencies.any (fun d => !(is_system d)) = false := by
                revert hlocal
                cases m.dependencies.any (fun d => !(is_system d)) <;> simp
              refine ⟨δm, hδm, ?_, ?_⟩
              · simp [countAddRpath, hfilter, hlocalF]
              · intro hcontra
                rw [hlocalF] at hcontra
                exact Bool.noConfusion hcontra

/-- The executable of the C6 witness. -/
def pC6 : FsPath := ⟨true, ["src", "My.app", "Contents", "MacOS", "exe"]⟩

/-- World for the C6 witness: the executable has only a system
dependency. -/
def wC6 : World :=
  { emptyWorld with
    canon := fun p => if p = pC6 then some pC6 else none,
    otool := fun p =>
      if p = pC6 then some ["hdr", "/usr/lib/libSystem.B.dylib (compatibility version 1.0.0)"]
      else none }

def ctxC6 : Ctx := ⟨wC6, ⟨true, ["src", "My.app"]⟩, ⟨true, ["out", "My.app"]⟩⟩

/-- The module the C6 witness's executable loads as. -/
def mC6 : Module := ⟨pC6, ["/usr/lib/libSystem.B.dylib"]⟩

theorem c6_witness :
    ∃ δ, st0.events = st0.events ++ δ ∧
      countAddRpath δ = (if mC6.dependencies.any (fun d => !(is_system d)) then 1 else 0) ∧
      (mC6.dependencies.any (fun d => !(is_system d)) = true →
        ∃ δ0 relative targetParent rp,
          diff_paths pC6 ctxC6.srcPath = some relative ∧
          (ctxC6.outPath.joinPath relative).parent = some targetParent ∧
          diff_paths ((ctxC6.outPath.join "Contents").join "Frameworks") targetParent =
            some rp ∧
          δ = δ0 ++ [.addRpath ((FsPath.ofString "@executable_path").joinPath rp)
                      (ctxC6.outPath.joinPath relative)] ∧
          countAddRpath δ0 = 0) :=
  c6_executable_rpath ctxC6 1 st0 pC6 st0 pC6 mC6 (by decide) (by decide) (by decide)

/-- C8: for a symbolic-link entry that reaches the symlink handling, the
link is first recreated at the destination; if the recreated link
canonicalizes to a path inside the output bundle root it is preserved as a
symlink and nothing else happens; otherwise the just-created link is
removed and the canonicalized source entry is copied in its place —
recursed into when it is a directory, copied as a file otherwise. -/
theorem c8_symlink_policy (ctx : Ctx) (fuel : Nat) (st : BState) (srcDir dstDir : FsPath)
    (name sn : String) (link destRes outRes : FsPath)
    (hmeta : ctx.w.symlinkMeta (srcDir.join name) = some true)
    (hsn : srcDir.fileName = some sn)
    (hskip : ¬(sn = "Contents" ∧ name = "Frameworks"))
    (hlink : ctx.w.readLink (srcDir.join name) = some link)
    (hcanonD : ctx.w.canon (dstDir.join name) = some destRes)
    (hcanonO : ctx.w.canon ctx.outPath = some outRes) :
    (destRes.startsWith outRes = true →
      process_entry_at ctx fuel st srcDir dstDir name =
        .ok { st with events := st.events ++ [.symlink link (dstDir.join name)] })
    ∧ (destRes.startsWith outRes = false →
      ∀ st1, process_entry_at ctx fuel st srcDir dstDir name = .ok st1 →
        ∃ srcRes, ctx.w.canon (srcDir.join name) = some srcRes ∧
          ((ctx.w.isDir srcRes = true ∧ ∃ δ, st1.events =
              st.events ++ [.symlink link (dstDir.join name), .removeFile (dstDir.join name),
                .createDir (dstDir.join name)] ++ δ)
           ∨ (ctx.w.isDir srcRes = false ∧
              st1.events = st.events ++ [.symlink link (dstDir.join name),
                .removeFile (dstDir.join name), .copyFile srcRes (dstDir.join name)] ∧
              st1.processed = st.processed))) := by
  constructor
  · intro hin
    simp [process_entry_at, process_entry, hmeta, hsn, hskip, hlink, hcanonD, hcanonO, hin]
  · intro hout st1 h
    simp only [process_entry_at, process_entry, hmeta, hsn, hlink, hcanonD, hcanonO] at h
    rw [if_neg hskip] at h
    simp only [hout, if_true, Bool.false_eq_true, if_false] at h
    simp only [process_entry_tail] at h
    split at h
    · exact Except.noConfusion h
    · rename_i srcRes hcanonS
      refine ⟨srcRes, hcanonS, ?_⟩
      split at h
      · rename_i hdir
        obtain ⟨δ, hδ⟩ := process_dir_fuel_events ctx fuel _ _ _ _ h
        refine Or.inl ⟨hdir, δ, ?_⟩
        rw [hδ]
        simp
      · rename_i hdir
        have hdirF : ctx.w.isDir srcRes = false := by
          revert hdir
          cases ctx.w.isDir srcRes <;> simp
        split at h
        · exact Except.noConfusion h
        · rename_i c hc
          split at h
          · rw [← Except.ok.inj h]
            exact Or.inr ⟨hdirF, by simp, rfl⟩
          · rw [← Except.ok.inj h]
            exact Or.inr ⟨hdirF, by simp, rfl⟩

/-- Directories of the C8 witness. -/
def srcDirC8 : FsPath := ⟨true, ["src", "My.app", "Contents"]⟩

def dstDirC8 : FsPath := ⟨true, ["out", "My.app", "Contents"]⟩

/-- The relative link text recreated at the destination. -/
def linkTargetC8 : FsPath := ⟨false, ["Versions", "Current", "lib"]⟩

/-- World for the C8 witness: the recreated link canonicalizes inside the
output bundle. -/
def wC8 : World :=
  { emptyWorld with
    symlinkMeta := fun p => if p = srcDirC8.join "lib" then some true else none,
    readLink := fun p => if p = srcDirC8.join "lib" then some linkTargetC8 else none,
    canon := fun p =>
      if p = dstDirC8.join "lib" then some ⟨true, ["out", "My.app", "Contents", "real"]⟩
      else if p = ⟨true, ["out", "My.app"]⟩ then some ⟨true, ["out", "My.app"]⟩
      else none }

def ctxC8 : Ctx := ⟨wC8, ⟨true, ["src", "My.app"]⟩, ⟨true, ["out", "My.app"]⟩⟩

theorem c8_witness :
    process_entry_at ctxC8 1 st0 srcDirC8 dstDirC8 "lib" =
      .ok { st0 with events := st0.events ++ [.symlink linkTargetC8 (dstDirC8.join "lib")] } :=
  (c8_symlink_policy ctxC8 1 st0 srcDirC8 dstDirC8 "lib" "Contents" linkTargetC8
    ⟨true, ["out", "My.app", "Contents", "real"]⟩ ⟨true, ["out", "My.app"]⟩
    (by decide) (by decide) (by decide) (by decide) (by decide) (by decide)).1 (by decide)

end BundleTool
